import Mathlib

/-!
Verification of the `msb` build tool (`src/target.rs`) against its
specification.  The development shallow-embeds the nom-based DSL parser,
the target/graph data model, the staleness evaluator and the build
executor, and proves or refutes the frozen claims about them.

Conventions of the embedding:
* source text is a `List Char`;
* a nom parser `IResult<&str, T>` becomes `List Char → Option (List Char × T)`
  (`none` is a parse error, `some (rest, v)` success with remaining input);
* filesystem timestamps (`SystemTime`) are `Nat`, a filesystem snapshot is
  `String → Option Nat` (`none` = missing file / unreadable metadata);
* the build executor is modelled with an explicit event trace and an
  environment oracle deciding spawn success, wait outcomes and the
  filesystem contents as functions of the trace so far; recursion over
  target dependencies carries explicit fuel (the Rust code can diverge on
  dependency cycles).
-/

/-- The characters matched by nom `multispace0` / `multispace1`:
space, tab, carriage return, line feed. -/
def isMsp (c : Char) : Bool :=
  c = ' ' || c = '\t' || c = '\r' || c = '\n'

/-- Rust `char::is_whitespace` (the Unicode `White_Space` property),
used by `str::trim` and `str::split_whitespace`. -/
def rustIsWhitespace (c : Char) : Bool :=
  (0x09 ≤ c.val && c.val ≤ 0x0D) || c.val = 0x20 || c.val = 0x85 ||
  c.val = 0xA0 || c.val = 0x1680 || (0x2000 ≤ c.val && c.val ≤ 0x200A) ||
  c.val = 0x2028 || c.val = 0x2029 || c.val = 0x202F || c.val = 0x205F ||
  c.val = 0x3000

/-- The character `{` (written via its code point to keep braces out of
character literals). -/
def lbrace : Char := Char.ofNat 123

/-- The character `}`. -/
def rbrace : Char := Char.ofNat 125

/-- Rust `str::trim`: drop whitespace from both ends. -/
def rustTrim (s : List Char) : List Char :=
  ((s.dropWhile rustIsWhitespace).reverse.dropWhile rustIsWhitespace).reverse

/-- Split a character list at every occurrence of `c` (the separators are
dropped, empty pieces are kept, like Rust `str::split(c)`). -/
def splitChar (c : Char) : List Char → List (List Char)
  | [] => [[]]
  | x :: xs =>
    if x = c then [] :: splitChar c xs
    else
      match splitChar c xs with
      | t :: ts => (x :: t) :: ts
      | [] => [[x]]

/-- Strip one trailing carriage return, as Rust `str::lines` does per line. -/
def stripCR (l : List Char) : List Char :=
  if l.getLast? = some '\r' then l.dropLast else l

/-- Rust `str::lines`: split on `\n`, drop a final empty piece produced by a
trailing newline (also turning `""` into no lines), strip a trailing `\r`
from each line. -/
def rustLines (s : List Char) : List (List Char) :=
  (if (splitChar '\n' s).getLast? = some [] then (splitChar '\n' s).dropLast
   else splitChar '\n' s).map stripCR

/-- Rust `str::split_whitespace`: split on Unicode whitespace and drop the
empty pieces. -/
def rustSplitWhitespace (s : List Char) : List (List Char) :=
  (List.splitOnP rustIsWhitespace s).filter (· ≠ [])

/-! ## The nom combinators used by `target.rs` -/

/-- A nom parser over string slices: `none` is a parse error, otherwise the
remaining input together with the parsed value. -/
def P (α : Type) : Type := List Char → Option (List Char × α)

/-- nom `tag`: match a literal prefix. -/
def pTag (pat : List Char) : P Unit := fun s =>
  if s.take pat.length = pat then some (s.drop pat.length, ()) else none

/-- nom `take_while1`: longest (non-empty) prefix of characters satisfying
the predicate. -/
def pTakeWhile1 (f : Char → Bool) : P (List Char) := fun s =>
  let pre := s.takeWhile f
  if pre = [] then none else some (s.drop pre.length, pre)

/-- nom `take_until` specialised to a one-character pattern (the code only
uses `take_until("}")`): everything before the first occurrence of `c`,
failing when `c` does not occur. -/
def pTakeUntilChar (c : Char) : P (List Char) := fun s =>
  let pre := s.takeWhile (· ≠ c)
  if pre.length = s.length then none else some (s.drop pre.length, pre)

/-- nom `multispace0` (never fails, result discarded). -/
def pMultispace0 : P Unit := fun s => some (s.dropWhile isMsp, ())

/-- nom `multispace1`: at least one of space/tab/CR/LF. -/
def pMultispace1 : P Unit := fun s =>
  match pTakeWhile1 isMsp s with
  | none => none
  | some (r, _) => some (r, ())

/-- nom `map`. -/
def pMap (p : P α) (f : α → β) : P β := fun s =>
  match p s with
  | none => none
  | some (r, a) => some (r, f a)

/-- nom `opt`: turn failure into `none` without consuming input. -/
def pOpt (p : P α) : P (Option α) := fun s =>
  match p s with
  | none => some (s, none)
  | some (r, a) => some (r, some a)

/-- nom `preceded`. -/
def pPreceded (a : P α) (b : P β) : P β := fun s =>
  match a s with
  | none => none
  | some (s1, _) => b s1

/-- nom `delimited`. -/
def pDelimited (a : P α) (b : P β) (c : P γ) : P β := fun s =>
  match a s with
  | none => none
  | some (s1, _) =>
    match b s1 with
    | none => none
    | some (s2, v) =>
      match c s2 with
      | none => none
      | some (s3, _) => some (s3, v)

/-- nom `separated_pair`. -/
def pSeparatedPair (a : P α) (sep : P β) (b : P γ) : P (α × γ) := fun s =>
  match a s with
  | none => none
  | some (s1, x) =>
    match sep s1 with
    | none => none
    | some (s2, _) =>
      match b s2 with
      | none => none
      | some (s3, y) => some (s3, (x, y))

/-- Loop of nom `many0`: keep applying `p` until it fails; if `p` succeeds
without consuming input nom reports an error (infinite-loop protection).
The fuel is structural; `pMany0` supplies enough for any input. -/
def pMany0Go (p : P α) : Nat → List Char → Option (List Char × List α)
  | 0, _ => none
  | fuel + 1, s =>
    match p s with
    | none => some (s, [])
    | some (s1, a) =>
      if s1.length < s.length then
        match pMany0Go p fuel s1 with
        | none => none
        | some (r, as) => some (r, a :: as)
      else none

/-- nom `many0`. -/
def pMany0 (p : P α) : P (List α) := fun s => pMany0Go p (s.length + 1) s

/-- Loop of nom `separated_list0`: repeatedly parse a separator followed by
an element, stopping (without consuming the separator) as soon as either
fails; a separator+element pair that consumes nothing is an error. -/
def pSepList0Go (sep : P β) (p : P α) : Nat → List Char → Option (List Char × List α)
  | 0, _ => none
  | fuel + 1, s =>
    match sep s with
    | none => some (s, [])
    | some (s1, _) =>
      match p s1 with
      | none => some (s, [])
      | some (s2, a) =>
        if s2.length < s.length then
          match pSepList0Go sep p fuel s2 with
          | none => none
          | some (r, as) => some (r, a :: as)
        else none

/-- nom `separated_list0`: an empty list when the first element is absent,
otherwise the first element followed by the separator/element loop. -/
def pSepList0 (sep : P β) (p : P α) : P (List α) := fun s =>
  match p s with
  | none => some (s, [])
  | some (s1, a) =>
    match pSepList0Go sep p (s1.length + 1) s1 with
    | none => none
    | some (r, as) => some (r, a :: as)

/-! ## The data model (`Target`, `Makefile`) -/

/-- `struct Target` of `target.rs`. -/
structure Target where
  name : String
  outputs : List String
  file_dependencies : List String
  target_dependencies : List String
  commands : List String
  deriving DecidableEq, Repr

/-- `struct Makefile` of `target.rs`. -/
structure Makefile where
  targets : List Target
  deriving DecidableEq, Repr

/-- `Makefile::get_target`: the first target with the given name. -/
def Makefile.get_target (mk : Makefile) (name : String) : Option Target :=
  mk.targets.find? (fun t => decide (t.name = name))

/-! ## The DSL parsers of `target.rs` -/

/-- `identifier`: nom `alphanumeric1` (one or more ASCII alphanumerics;
Lean's `Char.isAlphanum` is exactly ASCII letters and digits, matching
nom's `AsChar::is_alphanum`). -/
def identifier : P (List Char) := pTakeWhile1 Char.isAlphanum

/-- `file_identifier`: one or more characters that are neither whitespace
nor a closing parenthesis. -/
def file_identifier : P (List Char) :=
  pTakeWhile1 (fun c => !rustIsWhitespace c && c ≠ ')')

/-- `target_identifier`: one or more characters that are neither
whitespace nor a comma nor a closing parenthesis. -/
def target_identifier : P (List Char) :=
  pTakeWhile1 (fun c => !rustIsWhitespace c && c ≠ ',' && c ≠ ')')

/-- `parse_outputs`: `outputs(` …whitespace-separated file identifiers… `)`. -/
def parse_outputs : P (List String) :=
  pDelimited (pTag ("outputs(".data))
    (pSepList0 pMultispace1 (pMap file_identifier (fun l => String.mk l)))
    (pTag (")".data))

/-- `parse_files`: `files(` …whitespace-separated file identifiers… `)`. -/
def parse_files : P (List String) :=
  pDelimited (pTag ("files(".data))
    (pSepList0 pMultispace1 (pMap file_identifier (fun l => String.mk l)))
    (pTag (")".data))

/-- `parse_target_deps`: `targets(` …comma-separated target identifiers… `)`. -/
def parse_target_deps : P (List String) :=
  pDelimited (pTag ("targets(".data))
    (pSepList0 (pDelimited pMultispace0 (pTag (",".data)) pMultispace0)
      (pMap target_identifier (fun l => String.mk l)))
    (pTag (")".data))

/-- `parse_dependencies`: `[` files-block, whitespace, targets-block `]`. -/
def parse_dependencies : P (List String × List String) :=
  pDelimited (pTag ("[".data))
    (pSeparatedPair parse_files pMultispace1 parse_target_deps)
    (pTag ("]".data))

/-- The post-processing of the command-block content in `parse_commands`:
`content.lines().map(str::trim).filter(|l| !l.is_empty()).map(String::from)`. -/
def commandsOfContent (content : List Char) : List String :=
  (((rustLines content).map rustTrim).filter (· ≠ [])).map (fun l => String.mk l)

/-- `parse_commands`: a brace-delimited block; its content (everything up
to the first closing brace) is split into lines, trimmed, empty lines
dropped. -/
def parse_commands : P (List String) := fun s =>
  match pDelimited (pDelimited pMultispace0 (pTag [lbrace]) pMultispace0)
      (pTakeUntilChar rbrace)
      (pPreceded pMultispace0 (pTag [rbrace])) s with
  | none => none
  | some (r, content) => some (r, commandsOfContent content)

/-- `parse_target`: `target <name> [outputs(...)] [files(...) targets(...)] { ... }`,
with `outputs` defaulting to `[name]` when absent. -/
def parse_target : P Target := fun input =>
  match pMultispace0 input with
  | none => none
  | some (i1, _) =>
    match pTag ("target".data) i1 with
    | none => none
    | some (i2, _) =>
      match pMultispace1 i2 with
      | none => none
      | some (i3, _) =>
        match identifier i3 with
        | none => none
        | some (i4, nm) =>
          match pOpt (pPreceded pMultispace1 parse_outputs) i4 with
          | none => none
          | some (i5, outsOpt) =>
            match pMultispace1 i5 with
            | none => none
            | some (i6, _) =>
              match parse_dependencies i6 with
              | none => none
              | some (i7, deps) =>
                match pMultispace0 i7 with
                | none => none
                | some (i8, _) =>
                  match parse_commands i8 with
                  | none => none
                  | some (i9, cmds) =>
                    some (i9, { name := String.mk nm,
                                outputs := outsOpt.getD [String.mk nm],
                                file_dependencies := deps.1,
                                target_dependencies := deps.2,
                                commands := cmds })

/-- `parse_makefile`: `many0(parse_target)`, discarding the remaining
input; `None` exactly when the nom parser errors. -/
def parse_makefile (input : List Char) : Option Makefile :=
  match pMany0 parse_target input with
  | none => none
  | some (_, targets) => some { targets := targets }

/-! ## Staleness evaluator (`get_min_output_time`, `is_up_to_date`)

A filesystem snapshot is `fs : String → Option Nat`: the last-modified
time of a path, `none` when the file is missing or its metadata is
unreadable (the code folds both into the same failure). -/

/-- The accumulator loop of `Target::get_min_output_time`: walk the
outputs, giving up as soon as a timestamp is unavailable, otherwise
keeping the minimum seen so far. -/
def minOutGo (fs : String → Option Nat) : List String → Option Nat → Option Nat
  | [], acc => acc
  | o :: os, acc =>
    match fs o with
    | none => none
    | some m =>
      minOutGo fs os (some (match acc with
        | none => m
        | some cur => if m < cur then m else cur))

/-- `Target::get_min_output_time`. -/
def Target.get_min_output_time (fs : String → Option Nat) (t : Target) : Option Nat :=
  minOutGo fs t.outputs none

/-- `Target::is_up_to_date`. -/
def Target.is_up_to_date (fs : String → Option Nat) (mk : Makefile) (t : Target) : Bool :=
  match t.get_min_output_time fs with
  | none => false
  | some tm =>
    (t.file_dependencies.all fun dep =>
      match fs dep with
      | none => false
      | some dm => decide (dm ≤ tm)) &&
    (t.target_dependencies.all fun depName =>
      match mk.get_target depName with
      | none => false
      | some depT =>
        match depT.get_min_output_time fs with
        | none => false
        | some dm => decide (dm ≤ tm))

/-! Spec-side renderings of the staleness definitions, written from the
words of the specification (§4.3) for the refinement claim C2. -/

/-- Modified times of a list of paths: defined only when every path has a
readable timestamp. -/
def specTimes (fs : String → Option Nat) : List String → Option (List Nat)
  | [] => some []
  | p :: ps =>
    match fs p, specTimes fs ps with
    | some t, some ts => some (t :: ts)
    | _, _ => none

/-- Spec §4.3: `minOutputTime(T)` = the earliest last-modified timestamp
among the outputs, undefined when any output is missing or unreadable. -/
def specMinOutputTime (fs : String → Option Nat) (outputs : List String) : Option Nat :=
  (specTimes fs outputs).bind List.min?

/-! ## Build executor (`Target::build`, `Makefile::build`) -/

/-- Result of waiting on a spawned child process: a normal exit code, an
exit without a code (killed by a signal), or a failing `wait` call. -/
inductive WaitOutcome where
  | exited (code : Int)
  | noCode
  | waitFailed
  deriving DecidableEq, Repr

/-- Observable build events, in chronological trace order: a process
spawn (program and arguments, tagged with the building target), a wait on
a child with its outcome, the "up-to-date, skipping" notice, and the
"building took …" success report of one target. -/
inductive Event where
  | spawned (tname exe : String) (args : List String)
  | waited (tname exe : String) (args : List String) (outcome : WaitOutcome)
  | skipped (tname : String)
  | built (tname : String)
  deriving DecidableEq, Repr

/-- The target a trace event belongs to. -/
def Event.tname : Event → String
  | .spawned n _ _ => n
  | .waited n _ _ _ => n
  | .skipped n => n
  | .built n => n

/-- The external world: filesystem contents, spawn success and wait
outcomes are oracles over the event trace so far (modelling the passage
of time and the effects of the spawned processes). -/
structure Env where
  fsAt : List Event → String → Option Nat
  spawnOk : List Event → String → List String → Bool
  waitRes : List Event → String → List String → WaitOutcome

/-- `enum BuildError` of `target.rs`. -/
inductive BuildError where
  | FailedToSpawnProcess (cmd : String)
  | FailedToFindTargetForDependency (target_name dependency_name : String)
  | FailedToFindTargetToBuild (target_name : String)
  | BuildProcessFailedToStart
  | FailedToGetChildExitCode
  | BuildProcessQuitWithNonZero
  deriving DecidableEq, Repr

/-- Tokenize one command line at execution time, exactly as
`Target::build` does: `cmd.split_whitespace()`, program first, the rest
as arguments; `none` when the line has no tokens (the `continue` case). -/
def tokenizeCmd (cmd : String) : Option (String × List String) :=
  match (rustSplitWhitespace cmd.data).map (fun l => String.mk l) with
  | [] => none
  | exe :: args => some (exe, args)

/-- The spawn loop of `Target::build`: spawn every command of the target
(whitespace-only lines are skipped); a failing spawn aborts immediately
with `FailedToSpawnProcess` (already-spawned children stay in the trace
and are never waited on). Returns the spawned children in order. -/
def spawnPhase (env : Env) (tname : String) :
    List String → List Event → List Event × Except BuildError (List (String × List String))
  | [], tr => (tr, Except.ok [])
  | cmd :: rest, tr =>
    match tokenizeCmd cmd with
    | none => spawnPhase env tname rest tr
    | some (exe, args) =>
      if env.spawnOk tr exe args then
        match spawnPhase env tname rest (tr ++ [Event.spawned tname exe args]) with
        | (tr1, Except.ok cs) => (tr1, Except.ok ((exe, args) :: cs))
        | (tr1, Except.error e) => (tr1, Except.error e)
      else (tr, Except.error (BuildError.FailedToSpawnProcess cmd))

/-- The wait loop of `Target::build`: wait on each child in spawn order;
a failing wait, a missing exit code or a non-zero exit aborts with the
corresponding error (later children are left running). -/
def waitPhase (env : Env) (tname : String) :
    List (String × List String) → List Event → List Event × Except BuildError Unit
  | [], tr => (tr, Except.ok ())
  | (exe, args) :: rest, tr =>
    let o := env.waitRes tr exe args
    let tr1 := tr ++ [Event.waited tname exe args o]
    match o with
    | WaitOutcome.waitFailed => (tr1, Except.error BuildError.BuildProcessFailedToStart)
    | WaitOutcome.noCode => (tr1, Except.error BuildError.FailedToGetChildExitCode)
    | WaitOutcome.exited c =>
      if c ≠ 0 then (tr1, Except.error BuildError.BuildProcessQuitWithNonZero)
      else waitPhase env tname rest tr1

/-- The command phase of `Target::build` for a stale target: spawn all
commands, then wait on all of them, then report the elapsed-time notice. -/
def runCommands (env : Env) (t : Target) (tr : List Event) :
    List Event × Except BuildError Unit :=
  match spawnPhase env t.name t.commands tr with
  | (tr1, Except.error e) => (tr1, Except.error e)
  | (tr1, Except.ok children) =>
    match waitPhase env t.name children tr1 with
    | (tr2, Except.error e) => (tr2, Except.error e)
    | (tr2, Except.ok _) => (tr2 ++ [Event.built t.name], Except.ok ())

/-- The dependency loop of `Target::build`, parameterised by the
recursive build function `bt`: resolve each dependency name in declared
order, failing with `FailedToFindTargetForDependency` on an unresolved
name, and propagating the first build failure (`none` = the recursive
build ran out of fuel, i.e. the Rust code would still be recursing). -/
def depsGo (bt : Target → List Event → Option (List Event × Except BuildError Unit))
    (mk : Makefile) (parent : String) :
    List String → List Event → Option (List Event × Except BuildError Unit)
  | [], tr => some (tr, Except.ok ())
  | d :: ds, tr =>
    match mk.get_target d with
    | none => some (tr, Except.error (BuildError.FailedToFindTargetForDependency parent d))
    | some td =>
      match bt td tr with
      | none => none
      | some (tr1, Except.error e) => some (tr1, Except.error e)
      | some (tr1, Except.ok _) => depsGo bt mk parent ds tr1

/-- `Target::build`: build the target dependencies depth-first in
declared order, then skip when up to date (checking the filesystem as it
stands after the dependency builds), otherwise run the commands.  The
fuel bounds the recursion depth; `none` means it ran out (the unguarded
Rust recursion diverges on dependency cycles). -/
def Target.build (env : Env) (mk : Makefile) :
    Nat → Target → List Event → Option (List Event × Except BuildError Unit)
  | 0, _, _ => none
  | fuel + 1, t, tr =>
    match depsGo (fun td tr2 => Target.build env mk fuel td tr2) mk t.name
        t.target_dependencies tr with
    | none => none
    | some (tr1, Except.error e) => some (tr1, Except.error e)
    | some (tr1, Except.ok _) =>
      if t.is_up_to_date (env.fsAt tr1) mk
      then some (tr1 ++ [Event.skipped t.name], Except.ok ())
      else some (runCommands env t tr1)

/-- `Makefile::build`: resolve the requested root target, failing with
`FailedToFindTargetToBuild` when absent, and build it. -/
def Makefile.build (env : Env) (mk : Makefile) (fuel : Nat) (target : String)
    (tr : List Event) : Option (List Event × Except BuildError Unit) :=
  match mk.get_target target with
  | none => some (tr, Except.error (BuildError.FailedToFindTargetToBuild target))
  | some t => Target.build env mk fuel t tr

/-! ## Generic facts about the model -/

/-- A found target carries the searched name (`find?` on name equality). -/
theorem get_target_name {mk : Makefile} {n : String} {t : Target}
    (h : mk.get_target n = some t) : t.name = n := by
  have := List.find?_some h
  simpa using of_decide_eq_true this

/-- An environment with no files, successful spawns and clean exits, used
to instantiate hypotheses of the claim theorems at concrete inputs. -/
def trivialEnv : Env where
  fsAt := fun _ _ => none
  spawnOk := fun _ _ _ => true
  waitRes := fun _ _ _ => WaitOutcome.exited 0

/-! ## Claim C2: the staleness evaluator -/

/-- The accumulator loop of `get_min_output_time` computes a fold of
`min` over the timestamps of the outputs, provided all are readable. -/
theorem minOutGo_some (fs : String → Option Nat) (outs : List String) :
    ∀ c : Nat, minOutGo fs outs (some c) =
      (specTimes fs outs).map (fun ts => ts.foldl min c) := by
  induction outs with
  | nil => intro c; rfl
  | cons o os ih =>
    intro c
    cases h : fs o with
    | none => simp [minOutGo, specTimes, h]
    | some m =>
      have hmin : (if m < c then m else c) = min m c := by
        rcases Nat.lt_or_ge m c with h' | h'
        · rw [if_pos h', Nat.min_eq_left (Nat.le_of_lt h')]
        · rw [if_neg (Nat.not_lt.mpr h'), Nat.min_eq_right h']
      simp only [minOutGo, h, hmin, ih (min m c), specTimes]
      cases hts : specTimes fs os with
      | none => rfl
      | some ts => simp [List.foldl, Nat.min_comm m c]

/-- `get_min_output_time` agrees with the specification's
`minOutputTime`. -/
theorem get_min_output_time_spec (fs : String → Option Nat) (t : Target) :
    t.get_min_output_time fs = specMinOutputTime fs t.outputs := by
  unfold Target.get_min_output_time
  cases houts : t.outputs with
  | nil => rfl
  | cons o os =>
    cases h : fs o with
    | none => simp [minOutGo, specMinOutputTime, specTimes, h]
    | some m =>
      simp only [minOutGo, h, minOutGo_some fs os m]
      cases hts : specTimes fs os with
      | none => simp [specMinOutputTime, specTimes, h, hts]
      | some ts =>
        simp only [specMinOutputTime, specTimes, h, hts, Option.map_some,
          Option.bind_some]
        rfl

/-- The per-file-dependency check of `is_up_to_date`, as an existential. -/
theorem fileCheck_iff (fs : String → Option Nat) (tm : Nat) (p : String) :
    ((match fs p with
      | none => false
      | some dm => decide (dm ≤ tm)) = true) ↔
      ∃ dm, fs p = some dm ∧ dm ≤ tm := by
  cases h : fs p <;> simp

/-- The per-target-dependency check of `is_up_to_date`, as an existential. -/
theorem tgtCheck_iff (fs : String → Option Nat) (mk : Makefile) (tm : Nat) (d : String) :
    ((match mk.get_target d with
      | none => false
      | some depT =>
        match depT.get_min_output_time fs with
        | none => false
        | some dm => decide (dm ≤ tm)) = true) ↔
      ∃ dt, mk.get_target d = some dt ∧
        ∃ dm, specMinOutputTime fs dt.outputs = some dm ∧ dm ≤ tm := by
  cases h : mk.get_target d with
  | none => simp
  | some dt =>
    show (match dt.get_min_output_time fs with
      | none => false
      | some dm => decide (dm ≤ tm)) = true ↔ _
    rw [get_min_output_time_spec fs dt]
    cases hdm : specMinOutputTime fs dt.outputs <;> simp [hdm]

/-- C2: `is_up_to_date` follows exactly the specification's steps: its
`minOutputTime` helper agrees with the spec's (undefined when any output
is missing or unreadable), and it returns true exactly when the target's
own minimum output time is defined, every file dependency has a readable
modified time not newer than it, and every target dependency resolves in
the graph to a target whose minimum output time is defined and not newer
than it. -/
theorem c2_is_up_to_date_follows_spec (fs : String → Option Nat)
    (mk : Makefile) (t : Target) :
    t.get_min_output_time fs = specMinOutputTime fs t.outputs ∧
    (t.is_up_to_date fs mk = true ↔
      ∃ tm, specMinOutputTime fs t.outputs = some tm ∧
        (∀ p ∈ t.file_dependencies, ∃ dm, fs p = some dm ∧ dm ≤ tm) ∧
        (∀ d ∈ t.target_dependencies, ∃ dt, mk.get_target d = some dt ∧
          ∃ dm, specMinOutputTime fs dt.outputs = some dm ∧ dm ≤ tm)) := by
  refine ⟨get_min_output_time_spec fs t, ?_⟩
  unfold Target.is_up_to_date
  rw [get_min_output_time_spec fs t]
  cases hmt : specMinOutputTime fs t.outputs with
  | none => simp
  | some tm =>
    simp only [Bool.and_eq_true, List.all_eq_true, fileCheck_iff,
      tgtCheck_iff, Option.some.injEq]
    constructor
    · rintro ⟨hf, ht⟩
      exact ⟨tm, rfl, hf, ht⟩
    · rintro ⟨tm', htm', hf, ht⟩
      cases htm'
      exact ⟨hf, ht⟩

/-- A file system where every path was last modified at time 5, with
well-behaved processes; used for concrete witnesses. -/
def someFileEnv : Env where
  fsAt := fun _ _ => some 5
  spawnOk := fun _ _ _ => true
  waitRes := fun _ _ _ => WaitOutcome.exited 0

/-- A dependency-free target used in the C9 witness. -/
def upTarget : Target :=
  { name := "a", outputs := ["a"], file_dependencies := [],
    target_dependencies := [], commands := ["never run"] }

/-- A target depending on an undeclared name, used in the C7 witness. -/
def depTarget : Target :=
  { name := "dep", outputs := ["dep"], file_dependencies := [],
    target_dependencies := ["missing"], commands := ["echo hi"] }

/-! ## Claims C8, C9, C7: entry point, up-to-date skip, missing dependency -/

/-- C8: `Makefile::build` first resolves the requested root target and,
when no target of that name exists, fails with
`FailedToFindTargetToBuild` naming it, leaving the trace untouched
(nothing is built). -/
theorem c8_missing_root_target (env : Env) (mk : Makefile) (fuel : Nat)
    (name : String) (tr : List Event) (h : mk.get_target name = none) :
    Makefile.build env mk fuel name tr =
      some (tr, Except.error (BuildError.FailedToFindTargetToBuild name)) := by
  unfold Makefile.build
  rw [h]

/-- Witness for C8 at a concrete input: an empty makefile has no target
named `missing`, and building it reports exactly the missing-root error. -/
theorem c8_missing_root_target_witness :
    Makefile.get_target ⟨[]⟩ "missing" = none ∧
    Makefile.build trivialEnv ⟨[]⟩ 5 "missing" [] =
      some ([], Except.error (BuildError.FailedToFindTargetToBuild "missing")) :=
  ⟨rfl, c8_missing_root_target trivialEnv ⟨[]⟩ 5 "missing" [] rfl⟩

/-- C9: when, after the dependency loop succeeded, the target is up to
date (on the filesystem as it stands at that point), the build returns
success having appended exactly the skipped notice — in particular no
process is spawned for any of its commands. -/
theorem c9_up_to_date_skips (env : Env) (mk : Makefile) (fuel : Nat)
    (t : Target) (tr tr1 : List Event)
    (hdeps : depsGo (fun td tr2 => Target.build env mk fuel td tr2) mk t.name
      t.target_dependencies tr = some (tr1, Except.ok ()))
    (hupd : t.is_up_to_date (env.fsAt tr1) mk = true) :
    Target.build env mk (fuel + 1) t tr =
      some (tr1 ++ [Event.skipped t.name], Except.ok ()) := by
  simp [Target.build, hdeps, hupd]

/-- Witness for C9 at a concrete input: a dependency-free target whose
single output exists while it has no dependencies is up to date, and its
build only emits the skipped notice (its command is never spawned). -/
theorem c9_up_to_date_skips_witness :
    (depsGo (fun td tr2 => Target.build someFileEnv ⟨[upTarget]⟩ 0 td tr2)
        ⟨[upTarget]⟩ upTarget.name upTarget.target_dependencies [] =
      some ([], Except.ok ())) ∧
    upTarget.is_up_to_date (someFileEnv.fsAt []) ⟨[upTarget]⟩ = true ∧
    Target.build someFileEnv ⟨[upTarget]⟩ 1 upTarget [] =
      some ([Event.skipped "a"], Except.ok ()) :=
  ⟨rfl, rfl,
    c9_up_to_date_skips someFileEnv ⟨[upTarget]⟩ 0 upTarget [] [] rfl rfl⟩

/-- Processing an appended dependency list splits into processing the
first part and, if it completed successfully, the second from the
resulting trace. -/
theorem depsGo_append (bt : Target → List Event → Option (List Event × Except BuildError Unit))
    (mk : Makefile) (parent : String) (l1 l2 : List String) (tr : List Event) :
    depsGo bt mk parent (l1 ++ l2) tr =
      match depsGo bt mk parent l1 tr with
      | none => none
      | some (tr1, Except.error e) => some (tr1, Except.error e)
      | some (tr1, Except.ok _) => depsGo bt mk parent l2 tr1 := by
  induction l1 generalizing tr with
  | nil => simp [depsGo]
  | cons d ds ih =>
    show depsGo bt mk parent (d :: (ds ++ l2)) tr = _
    rw [depsGo]
    cases hd : mk.get_target d with
    | none => simp [depsGo, hd]
    | some td =>
      simp only
      cases hb : bt td tr with
      | none => simp [depsGo, hd, hb]
      | some res =>
        obtain ⟨tr1, r⟩ := res
        cases r with
        | error e => simp [depsGo, hd, hb]
        | ok _ => simp [depsGo, hd, hb, ih]

/-- C7: when a target's dependency list contains a name that resolves to
no target, and the dependencies before it were built successfully, the
build fails with `FailedToFindTargetForDependency` naming both the
dependent and the missing dependency, and the trace at failure is
exactly the trace after those earlier dependency builds — none of the
dependent's own commands have been spawned. -/
theorem c7_missing_dependency (env : Env) (mk : Makefile) (fuel : Nat)
    (t : Target) (pre post : List String) (d : String) (tr tr1 : List Event)
    (hdeps : t.target_dependencies = pre ++ d :: post)
    (hpre : depsGo (fun td tr2 => Target.build env mk fuel td tr2) mk t.name pre tr =
      some (tr1, Except.ok ()))
    (hd : mk.get_target d = none) :
    Target.build env mk (fuel + 1) t tr =
      some (tr1, Except.error (BuildError.FailedToFindTargetForDependency t.name d)) := by
  have hsplit := depsGo_append (fun td tr2 => Target.build env mk fuel td tr2)
    mk t.name pre (d :: post) tr
  rw [hpre] at hsplit
  simp only at hsplit
  rw [show depsGo (fun td tr2 => Target.build env mk fuel td tr2) mk t.name
      (d :: post) tr1 =
    some (tr1, Except.error (BuildError.FailedToFindTargetForDependency t.name d))
    from by rw [depsGo, hd]] at hsplit
  simp [Target.build, hdeps, hsplit]

/-- Witness for C7 at a concrete input: a target depending on the
undeclared name `missing` fails with the error naming both, before any
of its own commands spawn. -/
theorem c7_missing_dependency_witness :
    depTarget.target_dependencies = [] ++ "missing" :: [] ∧
    (depsGo (fun td tr2 => Target.build trivialEnv ⟨[depTarget]⟩ 0 td tr2)
        ⟨[depTarget]⟩ depTarget.name [] [] = some ([], Except.ok ())) ∧
    Makefile.get_target ⟨[depTarget]⟩ "missing" = none ∧
    Target.build trivialEnv ⟨[depTarget]⟩ 1 depTarget [] =
      some ([], Except.error
        (BuildError.FailedToFindTargetForDependency "dep" "missing")) :=
  ⟨rfl, rfl, rfl,
    c7_missing_dependency trivialEnv ⟨[depTarget]⟩ 0 depTarget [] [] "missing"
      [] [] rfl rfl rfl⟩

/-! ## Trace lemmas for the command phase -/

/-- A successful spawn phase spawns exactly the tokenizable commands, in
order, appending one spawn event per child. -/
theorem spawnPhase_ok (env : Env) (tname : String) :
    ∀ (cmds : List String) (tr tr' : List Event) (cs : List (String × List String)),
      spawnPhase env tname cmds tr = (tr', Except.ok cs) →
      cs = cmds.filterMap tokenizeCmd ∧
      tr' = tr ++ cs.map (fun p => Event.spawned tname p.1 p.2) := by
  intro cmds
  induction cmds with
  | nil =>
    intro tr tr' cs h
    simp only [spawnPhase] at h
    injection h with h1 h2
    injection h2 with h2
    subst h1; subst h2
    simp
  | cons cmd rest ih =>
    intro tr tr' cs h
    simp only [spawnPhase] at h
    cases htok : tokenizeCmd cmd with
    | none =>
      simp only [htok] at h
      obtain ⟨hcs, htr⟩ := ih tr tr' cs h
      simp [List.filterMap_cons, htok, hcs, htr]
    | some p =>
      obtain ⟨exe, args⟩ := p
      simp only [htok] at h
      by_cases hsp : env.spawnOk tr exe args = true
      · rw [if_pos hsp] at h
        cases hrec : spawnPhase env tname rest (tr ++ [Event.spawned tname exe args]) with
        | mk tr1 rres =>
          simp only [hrec] at h
          cases rres with
          | error e => exact absurd h (by simp)
          | ok cs1 =>
            injection h with h1 h2
            injection h2 with h2
            subst h1; subst h2
            obtain ⟨hcs, htr⟩ := ih _ _ _ hrec
            subst hcs
            simp [List.filterMap_cons, htok, htr]
      · rw [if_neg hsp] at h
        exact absurd h (by simp)

/-- The spawn phase only appends spawn events of the building target. -/
theorem spawnPhase_trace (env : Env) (tname : String) :
    ∀ (cmds : List String) (tr : List Event),
      ∃ d, (spawnPhase env tname cmds tr).1 = tr ++ d ∧
        ∀ e ∈ d, ∃ x a, e = Event.spawned tname x a := by
  intro cmds
  induction cmds with
  | nil => intro tr; exact ⟨[], by simp [spawnPhase]⟩
  | cons cmd rest ih =>
    intro tr
    cases htok : tokenizeCmd cmd with
    | none =>
      obtain ⟨d, hd, hall⟩ := ih tr
      exact ⟨d, by simp only [spawnPhase, htok]; exact hd, hall⟩
    | some p =>
      obtain ⟨exe, args⟩ := p
      by_cases hsp : env.spawnOk tr exe args = true
      · obtain ⟨d, hd, hall⟩ := ih (tr ++ [Event.spawned tname exe args])
        cases hrec : spawnPhase env tname rest (tr ++ [Event.spawned tname exe args]) with
        | mk tr1 rres =>
          rw [hrec] at hd
          refine ⟨Event.spawned tname exe args :: d, ?_, ?_⟩
          · simp only [spawnPhase, htok]
            rw [if_pos hsp, hrec]
            have hd' : tr1 = tr ++ [Event.spawned tname exe args] ++ d := hd
            cases rres with
            | error e =>
              show tr1 = tr ++ Event.spawned tname exe args :: d
              rw [hd']; simp
            | ok cs1 =>
              show tr1 = tr ++ Event.spawned tname exe args :: d
              rw [hd']; simp
          · intro e he
            rcases List.mem_cons.mp he with rfl | hmem
            · exact ⟨exe, args, rfl⟩
            · exact hall e hmem
      · refine ⟨[], ?_, by simp⟩
        simp only [spawnPhase, htok]
        rw [if_neg hsp]
        simp

/-- The wait phase appends one wait event per awaited child; on success
every child exited with code zero, and any recorded bad outcome (missing
exit code, failed wait, non-zero exit) forces the corresponding error
result. -/
theorem waitPhase_events (env : Env) (tname : String) :
    ∀ (cs : List (String × List String)) (tr tr' : List Event)
      (r : Except BuildError Unit), waitPhase env tname cs tr = (tr', r) →
      ∃ d, tr' = tr ++ d ∧
        (∀ e ∈ d, ∃ x a o, e = Event.waited tname x a o) ∧
        (r = Except.ok () → d.length = cs.length ∧
          ∀ e ∈ d, ∃ x a, e = Event.waited tname x a (WaitOutcome.exited 0)) ∧
        (∀ x a o, Event.waited tname x a o ∈ d →
          (o = WaitOutcome.noCode →
            r = Except.error BuildError.FailedToGetChildExitCode) ∧
          (o = WaitOutcome.waitFailed →
            r = Except.error BuildError.BuildProcessFailedToStart) ∧
          (∀ k, o = WaitOutcome.exited k → k ≠ 0 →
            r = Except.error BuildError.BuildProcessQuitWithNonZero)) := by
  intro cs
  induction cs with
  | nil =>
    intro tr tr' r h
    simp only [waitPhase] at h
    injection h with h1 h2
    subst h1; subst h2
    exact ⟨[], by simp, by simp, fun _ => ⟨rfl, by simp⟩, by simp⟩
  | cons c rest ih =>
    obtain ⟨exe, args⟩ := c
    intro tr tr' r h
    simp only [waitPhase] at h
    cases ho : env.waitRes tr exe args with
    | waitFailed =>
      simp only [ho] at h
      injection h with h1 h2
      subst h1; subst h2
      refine ⟨[Event.waited tname exe args WaitOutcome.waitFailed], rfl,
        by simp, by simp, ?_⟩
      intro x a o hmem
      simp only [List.mem_singleton, Event.waited.injEq, true_and] at hmem
      obtain ⟨rfl, rfl, rfl⟩ := hmem
      exact ⟨fun hcontra => WaitOutcome.noConfusion hcontra, fun _ => rfl,
        fun k hk => WaitOutcome.noConfusion hk⟩
    | noCode =>
      simp only [ho] at h
      injection h with h1 h2
      subst h1; subst h2
      refine ⟨[Event.waited tname exe args WaitOutcome.noCode], rfl,
        by simp, by simp, ?_⟩
      intro x a o hmem
      simp only [List.mem_singleton, Event.waited.injEq, true_and] at hmem
      obtain ⟨rfl, rfl, rfl⟩ := hmem
      exact ⟨fun _ => rfl, fun hcontra => WaitOutcome.noConfusion hcontra,
        fun k hk => WaitOutcome.noConfusion hk⟩
    | exited code =>
      simp only [ho] at h
      by_cases hc : code = 0
      · subst hc
        rw [if_neg (fun hh : (0 : Int) ≠ 0 => hh rfl)] at h
        obtain ⟨d, hd, hall, hok, hbad⟩ := ih _ _ _ h
        refine ⟨Event.waited tname exe args (WaitOutcome.exited 0) :: d, ?_, ?_, ?_, ?_⟩
        · rw [hd]; simp
        · intro e he
          rcases List.mem_cons.mp he with rfl | hmem
          · exact ⟨exe, args, WaitOutcome.exited 0, rfl⟩
          · exact hall e hmem
        · intro hr
          obtain ⟨hlen, hz⟩ := hok hr
          refine ⟨by simp [hlen], ?_⟩
          intro e he
          rcases List.mem_cons.mp he with rfl | hmem
          · exact ⟨exe, args, rfl⟩
          · exact hz e hmem
        · intro x a o hmem
          rcases List.mem_cons.mp hmem with heq | hmem
          · have heq' := heq
            simp only [Event.waited.injEq, true_and] at heq'
            obtain ⟨rfl, rfl, rfl⟩ := heq'
            refine ⟨fun hk => WaitOutcome.noConfusion hk,
              fun hk => WaitOutcome.noConfusion hk, ?_⟩
            intro k hk hknz
            injection hk with hk
            exact absurd hk.symm hknz
          · exact hbad x a o hmem
      · rw [if_pos hc] at h
        injection h with h1 h2
        subst h1; subst h2
        refine ⟨[Event.waited tname exe args (WaitOutcome.exited code)], rfl,
          by simp, by simp, ?_⟩
        intro x a o hmem
        simp only [List.mem_singleton, Event.waited.injEq, true_and] at hmem
        obtain ⟨rfl, rfl, rfl⟩ := hmem
        exact ⟨fun hk => WaitOutcome.noConfusion hk,
          fun hk => WaitOutcome.noConfusion hk, fun k hk _ => rfl⟩

/-- The events a command phase appends after the waits: the built notice
on success, nothing on failure. -/
def builtSuffix (tname : String) : Except BuildError Unit → List Event
  | Except.ok _ => [Event.built tname]
  | Except.error _ => []

/-- Full characterisation of the command phase: the trace grows by all
spawn events, then all wait events, then (on success) the built notice;
success requires every tokenizable command spawned and every child
exited zero, and a recorded bad wait outcome forces the corresponding
error result. -/
theorem runCommands_spec (env : Env) (t : Target) (tr tr2 : List Event)
    (r : Except BuildError Unit) (h : runCommands env t tr = (tr2, r)) :
    ∃ ds ws, tr2 = tr ++ ds ++ ws ++ builtSuffix t.name r ∧
      (∀ e ∈ ds, ∃ x a, e = Event.spawned t.name x a) ∧
      (∀ e ∈ ws, ∃ x a o, e = Event.waited t.name x a o) ∧
      (r = Except.ok () →
        ds = (t.commands.filterMap tokenizeCmd).map
          (fun p => Event.spawned t.name p.1 p.2) ∧
        ws.length = ds.length ∧
        ∀ e ∈ ws, ∃ x a, e = Event.waited t.name x a (WaitOutcome.exited 0)) ∧
      (∀ x a o, Event.waited t.name x a o ∈ ws →
        (o = WaitOutcome.noCode →
          r = Except.error BuildError.FailedToGetChildExitCode) ∧
        (o = WaitOutcome.waitFailed →
          r = Except.error BuildError.BuildProcessFailedToStart) ∧
        (∀ k, o = WaitOutcome.exited k → k ≠ 0 →
          r = Except.error BuildError.BuildProcessQuitWithNonZero)) := by
  unfold runCommands at h
  cases hsp : spawnPhase env t.name t.commands tr with
  | mk tr1 rs =>
    simp only [hsp] at h
    cases rs with
    | error e =>
      injection h with h1 h2
      subst h1; subst h2
      obtain ⟨ds, hds, hall⟩ := spawnPhase_trace env t.name t.commands tr
      rw [hsp] at hds
      have hds' : tr1 = tr ++ ds := hds
      refine ⟨ds, [], ?_, hall, by simp, fun hcontra => Except.noConfusion hcontra,
        by simp⟩
      rw [hds']; simp [builtSuffix]
    | ok cs =>
      obtain ⟨hcs, htr1⟩ := spawnPhase_ok env t.name t.commands tr tr1 cs hsp
      cases hw : waitPhase env t.name cs tr1 with
      | mk trw rw1 =>
        simp only [hw] at h
        obtain ⟨ws, hws, hwall, hwok, hwbad⟩ :=
          waitPhase_events env t.name cs tr1 trw rw1 hw
        cases rw1 with
        | error e =>
          injection h with h1 h2
          subst h1; subst h2
          refine ⟨cs.map (fun p => Event.spawned t.name p.1 p.2), ws, ?_, ?_,
            hwall, fun hcontra => Except.noConfusion hcontra, hwbad⟩
          · rw [hws, htr1]; simp [builtSuffix]
          · intro e he
            obtain ⟨p, hp, rfl⟩ := List.mem_map.mp he
            exact ⟨p.1, p.2, rfl⟩
        | ok u =>
          cases u
          injection h with h1 h2
          subst h1; subst h2
          refine ⟨cs.map (fun p => Event.spawned t.name p.1 p.2), ws, ?_, ?_,
            hwall, ?_, hwbad⟩
          · rw [hws, htr1]; simp [builtSuffix]
          · intro e he
            obtain ⟨p, hp, rfl⟩ := List.mem_map.mp he
            exact ⟨p.1, p.2, rfl⟩
          · intro _
            refine ⟨by rw [hcs], ?_, (hwok rfl).2⟩
            rw [(hwok rfl).1]
            simp

/-! ## Claim C4: spawn-then-wait, success and abort conditions -/

/-- C4: (1) the command phase of a stale target appends all its spawn
events, then all its wait events, then on success the built notice;
success requires that every tokenizable command was spawned and every
child exited with code zero, while a recorded missing exit code, failed
wait or non-zero exit forces the corresponding fatal error.  (2) a
dependency whose build fails aborts the dependency loop, so no
subsequent sibling contributes any event.  (3) a stale target's build is
exactly its command phase run after the dependency loop. -/
theorem c4_spawn_all_then_wait_all :
    (∀ (env : Env) (t : Target) (tr tr2 : List Event)
      (r : Except BuildError Unit), runCommands env t tr = (tr2, r) →
      ∃ ds ws, tr2 = tr ++ ds ++ ws ++ builtSuffix t.name r ∧
        (∀ e ∈ ds, ∃ x a, e = Event.spawned t.name x a) ∧
        (∀ e ∈ ws, ∃ x a o, e = Event.waited t.name x a o) ∧
        (r = Except.ok () →
          ds = (t.commands.filterMap tokenizeCmd).map
            (fun p => Event.spawned t.name p.1 p.2) ∧
          ws.length = ds.length ∧
          ∀ e ∈ ws, ∃ x a, e = Event.waited t.name x a (WaitOutcome.exited 0)) ∧
        (∀ x a o, Event.waited t.name x a o ∈ ws →
          (o = WaitOutcome.noCode →
            r = Except.error BuildError.FailedToGetChildExitCode) ∧
          (o = WaitOutcome.waitFailed →
            r = Except.error BuildError.BuildProcessFailedToStart) ∧
          (∀ k, o = WaitOutcome.exited k → k ≠ 0 →
            r = Except.error BuildError.BuildProcessQuitWithNonZero))) ∧
    (∀ (bt : Target → List Event → Option (List Event × Except BuildError Unit))
      (mk : Makefile) (parent d : String) (ds : List String)
      (tr tr1 : List Event) (td : Target) (e : BuildError),
      mk.get_target d = some td → bt td tr = some (tr1, Except.error e) →
      depsGo bt mk parent (d :: ds) tr = some (tr1, Except.error e)) ∧
    (∀ (env : Env) (mk : Makefile) (fuel : Nat) (t : Target)
      (tr tr1 : List Event),
      depsGo (fun td tr2 => Target.build env mk fuel td tr2) mk t.name
        t.target_dependencies tr = some (tr1, Except.ok ()) →
      t.is_up_to_date (env.fsAt tr1) mk = false →
      Target.build env mk (fuel + 1) t tr = some (runCommands env t tr1)) := by
  refine ⟨runCommands_spec, ?_, ?_⟩
  · intro bt mk parent d ds tr tr1 td e hd hb
    simp [depsGo, hd, hb]
  · intro env mk fuel t tr tr1 hdeps hupd
    simp [Target.build, hdeps, hupd]

/-- A recursive-build stub that always fails, used in the C4 witness. -/
def failBt : Target → List Event → Option (List Event × Except BuildError Unit) :=
  fun _ _ => some ([], Except.error BuildError.BuildProcessQuitWithNonZero)

/-- Witness for C4 at concrete inputs: a one-command target's phase
spawns then waits then reports; a failing first dependency aborts before
the sibling; a stale target's build is its command phase. -/
theorem c4_spawn_all_then_wait_all_witness :
    (∃ ds ws,
      ([Event.spawned "a" "never" ["run"],
        Event.waited "a" "never" ["run"] (WaitOutcome.exited 0),
        Event.built "a"] : List Event) = [] ++ ds ++ ws ++ builtSuffix "a" (Except.ok ()) ∧
      (∀ e ∈ ds, ∃ x a, e = Event.spawned "a" x a) ∧
      (∀ e ∈ ws, ∃ x a o, e = Event.waited "a" x a o) ∧
      ((Except.ok () : Except BuildError Unit) = Except.ok () →
        ds = (upTarget.commands.filterMap tokenizeCmd).map
          (fun p => Event.spawned "a" p.1 p.2) ∧
        ws.length = ds.length ∧
        ∀ e ∈ ws, ∃ x a, e = Event.waited "a" x a (WaitOutcome.exited 0)) ∧
      (∀ x a o, Event.waited "a" x a o ∈ ws →
        (o = WaitOutcome.noCode →
          (Except.ok () : Except BuildError Unit) =
            Except.error BuildError.FailedToGetChildExitCode) ∧
        (o = WaitOutcome.waitFailed →
          (Except.ok () : Except BuildError Unit) =
            Except.error BuildError.BuildProcessFailedToStart) ∧
        (∀ k, o = WaitOutcome.exited k → k ≠ 0 →
          (Except.ok () : Except BuildError Unit) =
            Except.error BuildError.BuildProcessQuitWithNonZero))) ∧
    depsGo failBt ⟨[upTarget]⟩ "p" ["a", "b"] [] =
      some ([], Except.error BuildError.BuildProcessQuitWithNonZero) ∧
    Target.build trivialEnv ⟨[]⟩ 1 upTarget [] =
      some (runCommands trivialEnv upTarget []) :=
  ⟨c4_spawn_all_then_wait_all.1 trivialEnv upTarget []
      [Event.spawned "a" "never" ["run"],
       Event.waited "a" "never" ["run"] (WaitOutcome.exited 0),
       Event.built "a"] (Except.ok ()) rfl,
   c4_spawn_all_then_wait_all.2.1 failBt ⟨[upTarget]⟩ "p" "a" ["b"] [] []
     upTarget BuildError.BuildProcessQuitWithNonZero rfl rfl,
   c4_spawn_all_then_wait_all.2.2 trivialEnv ⟨[]⟩ 0 upTarget [] [] rfl rfl⟩

/-! ## Claim C3: dependency-chain ordering -/

/-- The command phase only appends events of the building target. -/
theorem runCommands_trace (env : Env) (t : Target) (tr tr2 : List Event)
    (r : Except BuildError Unit) (h : runCommands env t tr = (tr2, r)) :
    ∃ d, tr2 = tr ++ d ∧ ∀ e ∈ d, Event.tname e = t.name := by
  obtain ⟨ds, ws, htr, hds, hws, _, _⟩ := runCommands_spec env t tr tr2 r h
  refine ⟨ds ++ ws ++ builtSuffix t.name r, by rw [htr]; simp, ?_⟩
  intro e he
  simp only [List.mem_append] at he
  rcases he with (hd | hw) | hb
  · obtain ⟨x, a, rfl⟩ := hds e hd; rfl
  · obtain ⟨x, a, o, rfl⟩ := hws e hw; rfl
  · cases r with
    | ok u =>
      simp only [builtSuffix, List.mem_singleton] at hb
      subst hb; rfl
    | error e2 => simp [builtSuffix] at hb

/-- Building a target with no target dependencies only appends events of
that target. -/
theorem build_noDeps_trace (env : Env) (mk : Makefile) (fuel : Nat)
    (t : Target) (tr tr2 : List Event) (r : Except BuildError Unit)
    (hd : t.target_dependencies = [])
    (h : Target.build env mk fuel t tr = some (tr2, r)) :
    ∃ d, tr2 = tr ++ d ∧ ∀ e ∈ d, Event.tname e = t.name := by
  cases fuel with
  | zero => simp [Target.build] at h
  | succ f =>
    simp only [Target.build, hd, depsGo] at h
    by_cases hup : t.is_up_to_date (env.fsAt tr) mk = true
    · rw [if_pos hup] at h
      injection h with h'
      injection h' with h1 h2
      subst h1
      exact ⟨[Event.skipped t.name], rfl, by simp [Event.tname]⟩
    · rw [if_neg hup] at h
      injection h with h'
      exact runCommands_trace env t tr tr2 r h'

/-- After a successful dependency loop, a build's own phase either skips
(appending exactly the notice) or is the command phase; either way it
only appends events of the target itself. -/
theorem build_own_phase (env : Env) (mk : Makefile) (fuel : Nat) (t : Target)
    (tr tr1 tr2 : List Event) (r : Except BuildError Unit)
    (hdeps : depsGo (fun td tr2 => Target.build env mk fuel td tr2) mk t.name
      t.target_dependencies tr = some (tr1, Except.ok ()))
    (hb : Target.build env mk (fuel + 1) t tr = some (tr2, r)) :
    ∃ d, tr2 = tr1 ++ d ∧ (∀ e ∈ d, Event.tname e = t.name) ∧
      ((d = [Event.skipped t.name] ∧ r = Except.ok ()) ∨
        runCommands env t tr1 = (tr2, r)) := by
  simp only [Target.build, hdeps] at hb
  by_cases hup : t.is_up_to_date (env.fsAt tr1) mk = true
  · rw [if_pos hup] at hb
    injection hb with hb'
    injection hb' with h1 h2
    subst h1; subst h2
    exact ⟨[Event.skipped t.name], rfl, by simp [Event.tname], Or.inl ⟨rfl, rfl⟩⟩
  · rw [if_neg hup] at hb
    injection hb with hb'
    obtain ⟨d, hd, htag⟩ := runCommands_trace env t tr1 tr2 r hb'
    exact ⟨d, hd, htag, Or.inr hb'⟩

/-- C3: for a chain where `A` depends on `B` and `B` on `C` (and `C` on
nothing), a successful build of `A` produces first `C`'s events, then
`B`'s, then `A`'s: the trace decomposes into three blocks tagged `c`,
`b`, `a` in that order, `C`'s build completed successfully before `B`'s
own phase, and `B`'s own phase before `A`'s; each own phase is either
the skip notice or a successful command phase. -/
theorem c3_chain_order (env : Env) (mk : Makefile) (fuel : Nat)
    (a b c : String) (A B C : Target) (tr tr' : List Event)
    (hA : mk.get_target a = some A) (hAd : A.target_dependencies = [b])
    (hB : mk.get_target b = some B) (hBd : B.target_dependencies = [c])
    (hC : mk.get_target c = some C) (hCd : C.target_dependencies = [])
    (hbuild : Target.build env mk fuel A tr = some (tr', Except.ok ())) :
    ∃ dC dB dA fc,
      tr' = ((tr ++ dC) ++ dB) ++ dA ∧
      (∀ e ∈ dC, Event.tname e = c) ∧
      (∀ e ∈ dB, Event.tname e = b) ∧
      (∀ e ∈ dA, Event.tname e = a) ∧
      Target.build env mk fc C tr = some (tr ++ dC, Except.ok ()) ∧
      (dB = [Event.skipped b] ∨
        runCommands env B (tr ++ dC) = ((tr ++ dC) ++ dB, Except.ok ())) ∧
      (dA = [Event.skipped a] ∨
        runCommands env A ((tr ++ dC) ++ dB) =
          (((tr ++ dC) ++ dB) ++ dA, Except.ok ())) := by
  cases fuel with
  | zero => simp [Target.build] at hbuild
  | succ f =>
    cases hFB : Target.build env mk f B tr with
    | none =>
      have hnone : Target.build env mk (f + 1) A tr = none := by
        simp [Target.build, hAd, depsGo, hB, hFB]
      rw [hnone] at hbuild
      exact Option.noConfusion hbuild
    | some resB =>
      obtain ⟨trB, rB⟩ := resB
      cases rB with
      | error e =>
        have herr : Target.build env mk (f + 1) A tr =
            some (trB, Except.error e) := by
          simp [Target.build, hAd, depsGo, hB, hFB]
        rw [herr] at hbuild
        injection hbuild with hbuild'
        injection hbuild' with h1 h2
        exact Except.noConfusion h2
      | ok u =>
        cases u
        have hdepsA : depsGo (fun td tr2 => Target.build env mk f td tr2) mk
            A.name A.target_dependencies tr = some (trB, Except.ok ()) := by
          rw [hAd]; simp [depsGo, hB, hFB]
        obtain ⟨dA, htr', htagA, hdisjA⟩ :=
          build_own_phase env mk f A tr trB tr' (Except.ok ()) hdepsA hbuild
        cases f with
        | zero => simp [Target.build] at hFB
        | succ g =>
          cases hFC : Target.build env mk g C tr with
          | none =>
            have hnone : Target.build env mk (g + 1) B tr = none := by
              simp [Target.build, hBd, depsGo, hC, hFC]
            rw [hnone] at hFB
            exact Option.noConfusion hFB
          | some resC =>
            obtain ⟨trC, rC⟩ := resC
            cases rC with
            | error e =>
              have herr : Target.build env mk (g + 1) B tr =
                  some (trC, Except.error e) := by
                simp [Target.build, hBd, depsGo, hC, hFC]
              rw [herr] at hFB
              injection hFB with hFB'
              injection hFB' with h1 h2
              exact Except.noConfusion h2
            | ok u =>
              cases u
              have hdepsB : depsGo (fun td tr2 => Target.build env mk g td tr2)
                  mk B.name B.target_dependencies tr =
                  some (trC, Except.ok ()) := by
                rw [hBd]; simp [depsGo, hC, hFC]
              obtain ⟨dB, htrB, htagB, hdisjB⟩ :=
                build_own_phase env mk g B tr trC trB (Except.ok ()) hdepsB hFB
              obtain ⟨dC, htrC, htagC⟩ :=
                build_noDeps_trace env mk g C tr trC (Except.ok ()) hCd hFC
              subst htrC; subst htrB; subst htr'
              refine ⟨dC, dB, dA, g, rfl, ?_, ?_, ?_, ?_, ?_, ?_⟩
              · intro e he; rw [htagC e he, get_target_name hC]
              · intro e he; rw [htagB e he, get_target_name hB]
              · intro e he; rw [htagA e he, get_target_name hA]
              · exact hFC
              · rcases hdisjB with ⟨hdB, _⟩ | hrun
                · left; rw [hdB, get_target_name hB]
                · right; exact hrun
              · rcases hdisjA with ⟨hdA, _⟩ | hrun
                · left; rw [hdA, get_target_name hA]
                · right; exact hrun

/-- Chain target `C` (no dependencies), for the C3 witness. -/
def chainC : Target :=
  { name := "c", outputs := ["c"], file_dependencies := [],
    target_dependencies := [], commands := ["touchc"] }

/-- Chain target `B`, depending on `C`, for the C3 witness. -/
def chainB : Target :=
  { name := "b", outputs := ["b"], file_dependencies := [],
    target_dependencies := ["c"], commands := ["touchb"] }

/-- Chain target `A`, depending on `B`, for the C3 witness. -/
def chainA : Target :=
  { name := "a", outputs := ["a"], file_dependencies := [],
    target_dependencies := ["b"], commands := ["toucha"] }

/-- The three-target chain makefile of the C3 witness. -/
def chainMk : Makefile := ⟨[chainA, chainB, chainC]⟩

/-- Witness for C3 at a concrete chain: building `a` runs `c`'s command,
then `b`'s, then `a`'s, and the trace decomposes accordingly. -/
theorem c3_chain_order_witness :
    chainMk.get_target "a" = some chainA ∧
    chainMk.get_target "b" = some chainB ∧
    chainMk.get_target "c" = some chainC ∧
    Target.build trivialEnv chainMk 3 chainA [] =
      some ([Event.spawned "c" "touchc" [],
             Event.waited "c" "touchc" [] (WaitOutcome.exited 0),
             Event.built "c",
             Event.spawned "b" "touchb" [],
             Event.waited "b" "touchb" [] (WaitOutcome.exited 0),
             Event.built "b",
             Event.spawned "a" "toucha" [],
             Event.waited "a" "toucha" [] (WaitOutcome.exited 0),
             Event.built "a"], Except.ok ()) ∧
    (∃ dC dB dA fc,
      ([Event.spawned "c" "touchc" [],
        Event.waited "c" "touchc" [] (WaitOutcome.exited 0),
        Event.built "c",
        Event.spawned "b" "touchb" [],
        Event.waited "b" "touchb" [] (WaitOutcome.exited 0),
        Event.built "b",
        Event.spawned "a" "toucha" [],
        Event.waited "a" "toucha" [] (WaitOutcome.exited 0),
        Event.built "a"] : List Event) = (([] ++ dC) ++ dB) ++ dA ∧
      (∀ e ∈ dC, Event.tname e = "c") ∧
      (∀ e ∈ dB, Event.tname e = "b") ∧
      (∀ e ∈ dA, Event.tname e = "a") ∧
      Target.build trivialEnv chainMk fc chainC [] =
        some ([] ++ dC, Except.ok ()) ∧
      (dB = [Event.skipped "b"] ∨
        runCommands trivialEnv chainB ([] ++ dC) =
          (([] ++ dC) ++ dB, Except.ok ())) ∧
      (dA = [Event.skipped "a"] ∨
        runCommands trivialEnv chainA (([] ++ dC) ++ dB) =
          ((([] ++ dC) ++ dB) ++ dA, Except.ok ()))) :=
  ⟨rfl, rfl, rfl, rfl,
    c3_chain_order trivialEnv chainMk 3 "a" "b" "c" chainA chainB chainC [] _
      rfl rfl rfl rfl rfl rfl rfl⟩

/-! ## Consumption bounds for the parsers (towards claims C10 and C1) -/

/-- A parser never leaves more input than it was given. -/
def NoExpand (p : P α) : Prop :=
  ∀ s r a, p s = some (r, a) → r.length ≤ s.length

theorem noExpand_pTag (pat : List Char) : NoExpand (pTag pat) := by
  intro s r a h
  unfold pTag at h
  by_cases hp : s.take pat.length = pat
  · rw [if_pos hp] at h
    injection h with h1
    injection h1 with h1 h2
    rw [← h1, List.length_drop]
    omega
  · rw [if_neg hp] at h
    exact Option.noConfusion h

theorem noExpand_pTakeWhile1 (f : Char → Bool) : NoExpand (pTakeWhile1 f) := by
  intro s r a h
  unfold pTakeWhile1 at h
  by_cases hp : s.takeWhile f = []
  · simp only [hp] at h
    exact Option.noConfusion h
  · simp only [if_neg hp] at h
    injection h with h1
    injection h1 with h1 h2
    rw [← h1, List.length_drop]
    omega

theorem noExpand_pTakeUntilChar (c : Char) : NoExpand (pTakeUntilChar c) := by
  intro s r a h
  unfold pTakeUntilChar at h
  by_cases hp : (s.takeWhile (· ≠ c)).length = s.length
  · rw [if_pos hp] at h
    exact Option.noConfusion h
  · rw [if_neg hp] at h
    injection h with h1
    injection h1 with h1 h2
    rw [← h1, List.length_drop]
    omega

theorem noExpand_pMultispace0 : NoExpand pMultispace0 := by
  intro s r a h
  unfold pMultispace0 at h
  injection h with h1
  injection h1 with h1 h2
  rw [← h1]
  exact (List.dropWhile_sublist isMsp).length_le

theorem noExpand_pMultispace1 : NoExpand pMultispace1 := by
  intro s r a h
  unfold pMultispace1 at h
  cases hp : pTakeWhile1 isMsp s with
  | none => simp only [hp] at h; exact Option.noConfusion h
  | some pr =>
    obtain ⟨r1, v⟩ := pr
    simp only [hp] at h
    injection h with h1
    injection h1 with h1 h2
    rw [← h1]
    exact noExpand_pTakeWhile1 isMsp s r1 v hp

theorem noExpand_pMap (p : P α) (f : α → β) (hp : NoExpand p) :
    NoExpand (pMap p f) := by
  intro s r a h
  unfold pMap at h
  cases hps : p s with
  | none => simp only [hps] at h; exact Option.noConfusion h
  | some pr =>
    obtain ⟨r1, v⟩ := pr
    simp only [hps] at h
    injection h with h1
    injection h1 with h1 h2
    rw [← h1]
    exact hp s r1 v hps

theorem noExpand_pOpt (p : P α) (hp : NoExpand p) : NoExpand (pOpt p) := by
  intro s r a h
  unfold pOpt at h
  cases hps : p s with
  | none =>
    simp only [hps] at h
    injection h with h1
    injection h1 with h1 h2
    rw [← h1]
  | some pr =>
    obtain ⟨r1, v⟩ := pr
    simp only [hps] at h
    injection h with h1
    injection h1 with h1 h2
    rw [← h1]
    exact hp s r1 v hps

theorem noExpand_pPreceded (a : P α) (b : P β) (ha : NoExpand a)
    (hb : NoExpand b) : NoExpand (pPreceded a b) := by
  intro s r v h
  unfold pPreceded at h
  cases has : a s with
  | none => simp only [has] at h; exact Option.noConfusion h
  | some pr =>
    obtain ⟨s1, v1⟩ := pr
    simp only [has] at h
    exact le_trans (hb s1 r v h) (ha s s1 v1 has)

theorem noExpand_pDelimited (a : P α) (b : P β) (c : P γ) (ha : NoExpand a)
    (hb : NoExpand b) (hc : NoExpand c) : NoExpand (pDelimited a b c) := by
  intro s r v h
  unfold pDelimited at h
  cases has : a s with
  | none => simp only [has] at h; exact Option.noConfusion h
  | some p1 =>
    obtain ⟨s1, v1⟩ := p1
    simp only [has] at h
    cases hbs : b s1 with
    | none => simp only [hbs] at h; exact Option.noConfusion h
    | some p2 =>
      obtain ⟨s2, v2⟩ := p2
      simp only [hbs] at h
      cases hcs : c s2 with
      | none => simp only [hcs] at h; exact Option.noConfusion h
      | some p3 =>
        obtain ⟨s3, v3⟩ := p3
        simp only [hcs] at h
        injection h with h1
        injection h1 with h1 h2
        rw [← h1]
        exact le_trans (le_trans (hc s2 s3 v3 hcs) (hb s1 s2 v2 hbs)) (ha s s1 v1 has)

theorem noExpand_pSeparatedPair (a : P α) (sep : P β) (b : P γ)
    (ha : NoExpand a) (hsep : NoExpand sep) (hb : NoExpand b) :
    NoExpand (pSeparatedPair a sep b) := by
  intro s r v h
  unfold pSeparatedPair at h
  cases has : a s with
  | none => simp only [has] at h; exact Option.noConfusion h
  | some p1 =>
    obtain ⟨s1, v1⟩ := p1
    simp only [has] at h
    cases hss : sep s1 with
    | none => simp only [hss] at h; exact Option.noConfusion h
    | some p2 =>
      obtain ⟨s2, v2⟩ := p2
      simp only [hss] at h
      cases hbs : b s2 with
      | none => simp only [hbs] at h; exact Option.noConfusion h
      | some p3 =>
        obtain ⟨s3, v3⟩ := p3
        simp only [hbs] at h
        injection h with h1
        injection h1 with h1 h2
        rw [← h1]
        exact le_trans (le_trans (hb s2 s3 v3 hbs) (hsep s1 s2 v2 hss))
          (ha s s1 v1 has)

theorem noExpand_pSepList0Go (sep : P β) (p : P α) :
    ∀ (fuel : Nat) (s r : List Char) (as : List α),
      pSepList0Go sep p fuel s = some (r, as) → r.length ≤ s.length := by
  intro fuel
  induction fuel with
  | zero => intro s r as h; exact Option.noConfusion h
  | succ f ih =>
    intro s r as h
    simp only [pSepList0Go] at h
    cases hsep : sep s with
    | none =>
      simp only [hsep] at h
      injection h with h1
      injection h1 with h1 h2
      rw [← h1]
    | some p1 =>
      obtain ⟨s1, v1⟩ := p1
      simp only [hsep] at h
      cases hps : p s1 with
      | none =>
        simp only [hps] at h
        injection h with h1
        injection h1 with h1 h2
        rw [← h1]
      | some p2 =>
        obtain ⟨s2, v2⟩ := p2
        simp only [hps] at h
        by_cases hlt : s2.length < s.length
        · rw [if_pos hlt] at h
          cases hrec : pSepList0Go sep p f s2 with
          | none => simp only [hrec] at h; exact Option.noConfusion h
          | some p3 =>
            obtain ⟨r2, as2⟩ := p3
            simp only [hrec] at h
            injection h with h1
            injection h1 with h1 h2
            rw [← h1]
            have := ih s2 r2 as2 hrec
            omega
        · rw [if_neg hlt] at h
          exact Option.noConfusion h

theorem noExpand_pSepList0 (sep : P β) (p : P α) (hp : NoExpand p) :
    NoExpand (pSepList0 sep p) := by
  intro s r as h
  unfold pSepList0 at h
  cases hps : p s with
  | none =>
    simp only [hps] at h
    injection h with h1
    injection h1 with h1 h2
    rw [← h1]
  | some p1 =>
    obtain ⟨s1, v1⟩ := p1
    simp only [hps] at h
    cases hgo : pSepList0Go sep p (s1.length + 1) s1 with
    | none => simp only [hgo] at h; exact Option.noConfusion h
    | some p2 =>
      obtain ⟨r2, as2⟩ := p2
      simp only [hgo] at h
      injection h with h1
      injection h1 with h1 h2
      rw [← h1]
      exact le_trans (noExpand_pSepList0Go sep p (s1.length + 1) s1 r2 as2 hgo)
        (hp s s1 v1 hps)

theorem noExpand_parse_outputs : NoExpand parse_outputs :=
  noExpand_pDelimited _ _ _ (noExpand_pTag _)
    (noExpand_pSepList0 _ _ (noExpand_pMap _ _ (noExpand_pTakeWhile1 _)))
    (noExpand_pTag _)

theorem noExpand_parse_files : NoExpand parse_files :=
  noExpand_pDelimited _ _ _ (noExpand_pTag _)
    (noExpand_pSepList0 _ _ (noExpand_pMap _ _ (noExpand_pTakeWhile1 _)))
    (noExpand_pTag _)

theorem noExpand_parse_target_deps : NoExpand parse_target_deps :=
  noExpand_pDelimited _ _ _ (noExpand_pTag _)
    (noExpand_pSepList0 _ _ (noExpand_pMap _ _ (noExpand_pTakeWhile1 _)))
    (noExpand_pTag _)

theorem noExpand_parse_dependencies : NoExpand parse_dependencies :=
  noExpand_pDelimited _ _ _ (noExpand_pTag _)
    (noExpand_pSeparatedPair _ _ _ noExpand_parse_files noExpand_pMultispace1
      noExpand_parse_target_deps)
    (noExpand_pTag _)

theorem noExpand_parse_commands : NoExpand parse_commands := by
  intro s r v h
  unfold parse_commands at h
  cases hd : pDelimited (pDelimited pMultispace0 (pTag [lbrace]) pMultispace0)
      (pTakeUntilChar rbrace) (pPreceded pMultispace0 (pTag [rbrace])) s with
  | none => simp only [hd] at h; exact Option.noConfusion h
  | some p1 =>
    obtain ⟨r1, content⟩ := p1
    simp only [hd] at h
    injection h with h1
    injection h1 with h1 h2
    rw [← h1]
    exact noExpand_pDelimited _ _ _
      (noExpand_pDelimited _ _ _ noExpand_pMultispace0 (noExpand_pTag _)
        noExpand_pMultispace0)
      (noExpand_pTakeUntilChar _)
      (noExpand_pPreceded _ _ noExpand_pMultispace0 (noExpand_pTag _))
      s r1 content hd

/-- A non-empty literal tag strictly consumes input. -/
theorem pTag_strict (pat : List Char) (s r : List Char) (hne : pat ≠ [])
    (h : pTag pat s = some (r, ())) : r.length < s.length := by
  unfold pTag at h
  by_cases hp : s.take pat.length = pat
  · rw [if_pos hp] at h
    injection h with h1
    injection h1 with h1 h2
    have hlen : (s.take pat.length).length = pat.length := by rw [hp]
    rw [List.length_take] at hlen
    have hpos : 0 < pat.length := List.length_pos.mpr hne
    rw [← h1, List.length_drop]
    omega
  · rw [if_neg hp] at h
    exact Option.noConfusion h

/-- A successfully parsed target declaration strictly consumes input
(it contains at least the keyword `target`). -/
theorem parse_target_consumes (s r : List Char) (t : Target)
    (h : parse_target s = some (r, t)) : r.length < s.length := by
  unfold parse_target at h
  cases h1 : pMultispace0 s with
  | none => simp only [h1] at h; exact Option.noConfusion h
  | some p1 =>
    obtain ⟨i1, u1⟩ := p1
    simp only [h1] at h
    cases h2 : pTag ("target".data) i1 with
    | none => simp only [h2] at h; exact Option.noConfusion h
    | some p2 =>
      obtain ⟨i2, u2⟩ := p2
      simp only [h2] at h
      cases h3 : pMultispace1 i2 with
      | none => simp only [h3] at h; exact Option.noConfusion h
      | some p3 =>
        obtain ⟨i3, u3⟩ := p3
        simp only [h3] at h
        cases h4 : identifier i3 with
        | none => simp only [h4] at h; exact Option.noConfusion h
        | some p4 =>
          obtain ⟨i4, nm⟩ := p4
          simp only [h4] at h
          cases h5 : pOpt (pPreceded pMultispace1 parse_outputs) i4 with
          | none => simp only [h5] at h; exact Option.noConfusion h
          | some p5 =>
            obtain ⟨i5, outsOpt⟩ := p5
            simp only [h5] at h
            cases h6 : pMultispace1 i5 with
            | none => simp only [h6] at h; exact Option.noConfusion h
            | some p6 =>
              obtain ⟨i6, u6⟩ := p6
              simp only [h6] at h
              cases h7 : parse_dependencies i6 with
              | none => simp only [h7] at h; exact Option.noConfusion h
              | some p7 =>
                obtain ⟨i7, deps⟩ := p7
                simp only [h7] at h
                cases h8 : pMultispace0 i7 with
                | none => simp only [h8] at h; exact Option.noConfusion h
                | some p8 =>
                  obtain ⟨i8, u8⟩ := p8
                  simp only [h8] at h
                  cases h9 : parse_commands i8 with
                  | none => simp only [h9] at h; exact Option.noConfusion h
                  | some p9 =>
                    obtain ⟨i9, cmds⟩ := p9
                    simp only [h9] at h
                    injection h with hh
                    injection hh with hh1 hh2
                    have e1 : i1.length ≤ s.length := by
                      obtain ⟨⟩ := u1
                      exact noExpand_pMultispace0 s i1 () h1
                    have e2 : i2.length < i1.length := by
                      obtain ⟨⟩ := u2
                      exact pTag_strict ("target".data) i1 i2 (by decide) h2
                    have e3 : i3.length ≤ i2.length := by
                      obtain ⟨⟩ := u3
                      exact noExpand_pMultispace1 i2 i3 () h3
                    have e4 : i4.length ≤ i3.length :=
                      noExpand_pTakeWhile1 _ i3 i4 nm h4
                    have e5 : i5.length ≤ i4.length :=
                      noExpand_pOpt _ (noExpand_pPreceded _ _ noExpand_pMultispace1
                        noExpand_parse_outputs) i4 i5 outsOpt h5
                    have e6 : i6.length ≤ i5.length := by
                      obtain ⟨⟩ := u6
                      exact noExpand_pMultispace1 i5 i6 () h6
                    have e7 : i7.length ≤ i6.length :=
                      noExpand_parse_dependencies i6 i7 deps h7
                    have e8 : i8.length ≤ i7.length := by
                      obtain ⟨⟩ := u8
                      exact noExpand_pMultispace0 i7 i8 () h8
                    have e9 : i9.length ≤ i8.length :=
                      noExpand_parse_commands i8 i9 cmds h9
                    rw [← hh1]
                    omega

/-- With fuel exceeding the input length, the `many0` loop over
`parse_target` always succeeds (each iteration strictly consumes). -/
theorem pMany0Go_parse_target_total :
    ∀ (fuel : Nat) (s : List Char), s.length < fuel →
      ∃ r ts, pMany0Go parse_target fuel s = some (r, ts) := by
  intro fuel
  induction fuel with
  | zero => intro s h; omega
  | succ f ih =>
    intro s hs
    cases hp : parse_target s with
    | none => exact ⟨s, [], by simp [pMany0Go, hp]⟩
    | some pr =>
      obtain ⟨s1, t⟩ := pr
      have hlt : s1.length < s.length := parse_target_consumes s s1 t hp
      obtain ⟨r, ts, hrec⟩ := ih s1 (by omega)
      exact ⟨r, t :: ts, by simp [pMany0Go, hp, hlt, hrec]⟩

/-- C10: `parse_makefile` succeeds on every input string and never
reports a parse error: the `many0` loop collects the target declarations
parsed from the start of the input, the remaining (possibly malformed)
suffix is silently discarded, and the resulting makefile holds exactly
the collected targets — possibly none. -/
theorem c10_parse_makefile_total (s : String) :
    ∃ rest targets, pMany0 parse_target s.data = some (rest, targets) ∧
      parse_makefile s.data = some { targets := targets } := by
  obtain ⟨r, ts, h⟩ :=
    pMany0Go_parse_target_total (s.data.length + 1) s.data (by omega)
  have h' : pMany0 parse_target s.data = some (r, ts) := h
  exact ⟨r, ts, h', by simp only [parse_makefile, h']⟩

/-! ## Claim C1: malformed source does not abort parsing -/

/-- A source text whose first declaration is well-formed and whose second
lacks its closing brace. -/
def c1BadSource : String :=
  "target a [files() targets()] \x7becho hi\x7d target b [files() targets()] \x7b"

/-- C1 (divergence evaluated): on a source whose trailing target block
is missing its closing brace, `parse_makefile` reports no error at all —
it returns a makefile containing the one target parsed before the
malformation.  The claimed all-or-nothing failure does not happen. -/
theorem c1_malformed_suffix_keeps_partial_graph :
    (parse_makefile c1BadSource.data).map
      (fun m => m.targets.map Target.name) = some ["a"] := by
  rfl

/-! ## Claim C6: the default for `outputs` -/

/-- C6 (amended): a parsed target's `outputs` is the parsed explicit
clause when one is present at the post-name position, and defaults to
the one-element list `[name]` when the clause is absent.  (An explicit
`outputs()` clause is taken verbatim, so it may be empty.) -/
theorem c6_outputs_defaults_to_name (input rest : List Char) (t : Target)
    (h : parse_target input = some (rest, t)) :
    ∃ i1 i2 i3 i4 nm,
      pMultispace0 input = some (i1, ()) ∧
      pTag ("target".data) i1 = some (i2, ()) ∧
      pMultispace1 i2 = some (i3, ()) ∧
      identifier i3 = some (i4, nm) ∧
      t.name = String.mk nm ∧
      (pPreceded pMultispace1 parse_outputs i4 = none → t.outputs = [t.name]) ∧
      (∀ i5 outs, pPreceded pMultispace1 parse_outputs i4 = some (i5, outs) →
        t.outputs = outs) := by
  unfold parse_target at h
  cases h1 : pMultispace0 input with
  | none => simp only [h1] at h; exact Option.noConfusion h
  | some p1 =>
    obtain ⟨i1, u1⟩ := p1
    simp only [h1] at h
    cases h2 : pTag ("target".data) i1 with
    | none => simp only [h2] at h; exact Option.noConfusion h
    | some p2 =>
      obtain ⟨i2, u2⟩ := p2
      simp only [h2] at h
      cases h3 : pMultispace1 i2 with
      | none => simp only [h3] at h; exact Option.noConfusion h
      | some p3 =>
        obtain ⟨i3, u3⟩ := p3
        simp only [h3] at h
        cases h4 : identifier i3 with
        | none => simp only [h4] at h; exact Option.noConfusion h
        | some p4 =>
          obtain ⟨i4, nm⟩ := p4
          simp only [h4] at h
          obtain ⟨⟩ := u1
          obtain ⟨⟩ := u2
          obtain ⟨⟩ := u3
          refine ⟨i1, i2, i3, i4, nm, rfl, h2, h3, h4, ?_⟩
          cases hexp : pPreceded pMultispace1 parse_outputs i4 with
          | none =>
            have h5 : pOpt (pPreceded pMultispace1 parse_outputs) i4 =
                some (i4, none) := by
              unfold pOpt; rw [hexp]
            simp only [h5] at h
            cases h6 : pMultispace1 i4 with
            | none => simp only [h6] at h; exact Option.noConfusion h
            | some p6 =>
              obtain ⟨i6, u6⟩ := p6
              simp only [h6] at h
              cases h7 : parse_dependencies i6 with
              | none => simp only [h7] at h; exact Option.noConfusion h
              | some p7 =>
                obtain ⟨i7, deps⟩ := p7
                simp only [h7] at h
                cases h8 : pMultispace0 i7 with
                | none => simp only [h8] at h; exact Option.noConfusion h
                | some p8 =>
                  obtain ⟨i8, u8⟩ := p8
                  simp only [h8] at h
                  cases h9 : parse_commands i8 with
                  | none => simp only [h9] at h; exact Option.noConfusion h
                  | some p9 =>
                    obtain ⟨i9, cmds⟩ := p9
                    simp only [h9] at h
                    injection h with hh
                    injection hh with hh1 hh2
                    subst hh2
                    exact ⟨rfl, fun _ => rfl,
                      fun i5 outs heq => Option.noConfusion heq⟩
          | some pexp =>
            obtain ⟨i5, outs⟩ := pexp
            have h5 : pOpt (pPreceded pMultispace1 parse_outputs) i4 =
                some (i5, some outs) := by
              unfold pOpt; rw [hexp]
            simp only [h5] at h
            cases h6 : pMultispace1 i5 with
            | none => simp only [h6] at h; exact Option.noConfusion h
            | some p6 =>
              obtain ⟨i6, u6⟩ := p6
              simp only [h6] at h
              cases h7 : parse_dependencies i6 with
              | none => simp only [h7] at h; exact Option.noConfusion h
              | some p7 =>
                obtain ⟨i7, deps⟩ := p7
                simp only [h7] at h
                cases h8 : pMultispace0 i7 with
                | none => simp only [h8] at h; exact Option.noConfusion h
                | some p8 =>
                  obtain ⟨i8, u8⟩ := p8
                  simp only [h8] at h
                  cases h9 : parse_commands i8 with
                  | none => simp only [h9] at h; exact Option.noConfusion h
                  | some p9 =>
                    obtain ⟨i9, cmds⟩ := p9
                    simp only [h9] at h
                    injection h with hh
                    injection hh with hh1 hh2
                    subst hh2
                    refine ⟨rfl, fun hcontra => Option.noConfusion hcontra, ?_⟩
                    intro i5' outs' heq
                    simp only [Option.some.injEq, Prod.mk.injEq] at heq
                    exact heq.2

/-- Witness for (amended) C6 at a concrete input: a declaration without
an `outputs` clause parses with `outputs = ["a"] = [name]`. -/
theorem c6_outputs_defaults_to_name_witness :
    parse_target ("target a [files() targets()] \x7bx\x7d".data) =
      some ([], { name := "a", outputs := ["a"], file_dependencies := [],
                  target_dependencies := [], commands := ["x"] }) ∧
    (∃ i1 i2 i3 i4 nm,
      pMultispace0 ("target a [files() targets()] \x7bx\x7d".data) =
        some (i1, ()) ∧
      pTag ("target".data) i1 = some (i2, ()) ∧
      pMultispace1 i2 = some (i3, ()) ∧
      identifier i3 = some (i4, nm) ∧
      Target.name { name := "a", outputs := ["a"], file_dependencies := [],
                    target_dependencies := [], commands := ["x"] } =
        String.mk nm ∧
      (pPreceded pMultispace1 parse_outputs i4 = none →
        Target.outputs { name := "a", outputs := ["a"], file_dependencies := [],
                         target_dependencies := [], commands := ["x"] } =
          [Target.name { name := "a", outputs := ["a"],
                         file_dependencies := [], target_dependencies := [],
                         commands := ["x"] }]) ∧
      (∀ i5 outs, pPreceded pMultispace1 parse_outputs i4 = some (i5, outs) →
        Target.outputs { name := "a", outputs := ["a"],
                         file_dependencies := [], target_dependencies := [],
                         commands := ["x"] } = outs)) :=
  ⟨rfl, c6_outputs_defaults_to_name ("target a [files() targets()] \x7bx\x7d".data)
    [] _ rfl⟩

/-- Counterexample to C6 as stated: a target declared with an explicit
empty `outputs()` clause parses successfully with an empty outputs list,
so outputs is not "never empty for any parsed target". -/
theorem c6_empty_outputs_clause_counterexample :
    ∃ rest t,
      parse_target ("target a outputs() [files() targets()] \x7bx\x7d".data) =
        some (rest, t) ∧ t.outputs = [] :=
  ⟨[], { name := "a", outputs := [], file_dependencies := [],
         target_dependencies := [], commands := ["x"] }, rfl, rfl⟩

/-! ## Claim C5: command splitting and whitespace tokenization -/

/-- The spec's description of command-block processing: split the content
on newlines, trim each line, drop the empty ones, keep declaration
order. -/
def specCommandSplit (content : List Char) : List String :=
  ((((splitChar '\n' content).map rustTrim).filter (· ≠ []))).map
    (fun l => String.mk l)

/-- Appending one trailing whitespace character does not change the
trimmed result. -/
theorem rustTrim_append_ws (l : List Char) (c : Char)
    (hc : rustIsWhitespace c = true) : rustTrim (l ++ [c]) = rustTrim l := by
  unfold rustTrim
  rw [List.dropWhile_append]
  by_cases he : (l.dropWhile rustIsWhitespace).isEmpty = true
  · rw [if_pos he]
    rw [List.isEmpty_iff] at he
    rw [he]
    simp [List.dropWhile, hc]
  · rw [if_neg he]
    rw [List.reverse_append]
    simp only [List.reverse_cons, List.reverse_nil, List.nil_append,
      List.singleton_append]
    rw [List.dropWhile_cons_of_pos hc]

/-- Stripping the trailing carriage return Rust `lines` removes does not
change the trimmed result. -/
theorem rustTrim_stripCR (l : List Char) : rustTrim (stripCR l) = rustTrim l := by
  unfold stripCR
  by_cases h : l.getLast? = some '\r'
  · rw [if_pos h]
    obtain ⟨l', rfl⟩ := List.getLast?_eq_some_iff.mp h
    rw [List.dropLast_concat]
    exact (rustTrim_append_ws l' '\r' (by decide)).symm
  · rw [if_neg h]

/-- The code's `lines → trim → drop empty` pipeline equals the spec's
`split on newline → trim → drop empty` pipeline: the two extra touches
of Rust `lines` (dropping a final empty piece, stripping `\r`) are
absorbed by trimming and dropping empties. -/
theorem commandsOfContent_eq_spec (content : List Char) :
    commandsOfContent content = specCommandSplit content := by
  unfold commandsOfContent specCommandSplit rustLines
  have hms : ∀ (l : List (List Char)),
      (l.map stripCR).map rustTrim = l.map rustTrim := by
    intro l
    rw [List.map_map]
    exact List.map_congr_left (fun a _ => rustTrim_stripCR a)
  by_cases hlast : (splitChar '\n' content).getLast? = some []
  · rw [if_pos hlast, hms]
    obtain ⟨l', hl'⟩ := List.getLast?_eq_some_iff.mp hlast
    rw [hl', List.dropLast_concat, List.map_append, List.filter_append]
    simp [rustTrim]
  · rw [if_neg hlast, hms]

/-- The first element surviving a `dropWhile` fails the predicate. -/
theorem dropWhile_head_neg (p : α → Bool) (l : List α) (x : α) (xs : List α)
    (h : l.dropWhile p = x :: xs) : p x = false := by
  induction l with
  | nil => exact absurd h (by simp)
  | cons y ys ih =>
    by_cases hp : p y = true
    · rw [List.dropWhile_cons_of_pos hp] at h
      exact ih h
    · rw [List.dropWhile_cons_of_neg hp] at h
      injection h with h1 h2
      rw [← h1]
      exact Bool.not_eq_true _ ▸ eq_false_of_ne_true hp

/-- Dropping as many elements as the `takeWhile` run leaves exactly the
`dropWhile` remainder. -/
theorem drop_length_takeWhile (p : α → Bool) (l : List α) :
    l.drop (l.takeWhile p).length = l.dropWhile p := by
  induction l with
  | nil => rfl
  | cons x xs ih =>
    by_cases hp : p x = true
    · rw [List.takeWhile_cons_of_pos hp, List.dropWhile_cons_of_pos hp]
      simpa using ih
    · rw [List.takeWhile_cons_of_neg hp, List.dropWhile_cons_of_neg hp]
      rfl

/-- `multispace0` splits its input into an all-whitespace run and the
remainder. -/
theorem pMultispace0_split (s r : List Char) (u : Unit)
    (h : pMultispace0 s = some (r, u)) :
    ∃ w, s = w ++ r ∧ ∀ ch ∈ w, isMsp ch = true := by
  unfold pMultispace0 at h
  injection h with h1
  injection h1 with h1 h2
  refine ⟨s.takeWhile isMsp, ?_, fun ch hch => List.mem_takeWhile_imp hch⟩
  rw [← h1]
  exact (List.takeWhile_append_dropWhile isMsp s).symm

/-- A one-character tag consumes exactly that character. -/
theorem pTag_singleton (c : Char) (s r : List Char) (u : Unit)
    (h : pTag [c] s = some (r, u)) : s = c :: r := by
  unfold pTag at h
  by_cases hp : s.take 1 = [c]
  · simp only [List.length_cons, List.length_nil, Nat.zero_add] at h
    rw [if_pos hp] at h
    injection h with h1
    injection h1 with h1 h2
    rw [← h1]
    conv_lhs => rw [← List.take_append_drop 1 s]
    rw [hp]
    rfl
  · simp only [List.length_cons, List.length_nil, Nat.zero_add] at h
    rw [if_neg hp] at h
    exact Option.noConfusion h

/-- `take_until` splits its input into the content before the first
occurrence of the stop character and a remainder starting with it. -/
theorem pTakeUntilChar_split (c : Char) (s r content : List Char)
    (h : pTakeUntilChar c s = some (r, content)) :
    ∃ r', r = c :: r' ∧ s = content ++ c :: r' ∧ c ∉ content := by
  unfold pTakeUntilChar at h
  by_cases hlen : (s.takeWhile (fun x => x ≠ c)).length = s.length
  · rw [if_pos hlen] at h
    exact Option.noConfusion h
  · rw [if_neg hlen] at h
    injection h with h1
    injection h1 with h1 h2
    have hdrop : r = s.dropWhile (fun x => x ≠ c) := by
      rw [← h1]
      exact drop_length_takeWhile _ s
    have hne : s.dropWhile (fun x => x ≠ c) ≠ [] := by
      intro hnil
      have := List.takeWhile_append_dropWhile (fun x => x ≠ c) s
      rw [hnil, List.append_nil] at this
      exact hlen (by rw [this])
    obtain ⟨x, r', hxr⟩ := List.exists_cons_of_ne_nil hne
    have hx : x = c := by
      have hhead := dropWhile_head_neg (fun x => x ≠ c) s x r' hxr
      simpa using hhead
    refine ⟨r', by rw [hdrop, hxr, hx], ?_, ?_⟩
    · conv_lhs => rw [← List.takeWhile_append_dropWhile (fun x => x ≠ c) s]
      rw [h2, hxr, hx]
    · intro hmem
      rw [← h2] at hmem
      have := List.mem_takeWhile_imp hmem
      simp at this

/-- The closing part of the command block: optional whitespace never
fires (the input starts with the brace), then the brace is consumed. -/
theorem close_brace_split (r' s3 : List Char) (u : Unit)
    (h : pPreceded pMultispace0 (pTag [rbrace]) (rbrace :: r') = some (s3, u)) :
    s3 = r' := by
  unfold pPreceded pMultispace0 at h
  rw [List.dropWhile_cons_of_neg (by decide)] at h
  have hcons := pTag_singleton rbrace (rbrace :: r') s3 u h
  injection hcons with hh1 hh2
  exact hh2.symm

/-- The opening part of the command block: whitespace, the opening
brace, whitespace. -/
theorem open_brace_split (s r : List Char) (u : Unit)
    (h : pDelimited pMultispace0 (pTag [lbrace]) pMultispace0 s = some (r, u)) :
    ∃ w1 w2, s = w1 ++ lbrace :: (w2 ++ r) ∧
      (∀ ch ∈ w1, isMsp ch = true) ∧ (∀ ch ∈ w2, isMsp ch = true) := by
  unfold pDelimited at h
  cases h1 : pMultispace0 s with
  | none => simp only [h1] at h; exact Option.noConfusion h
  | some p1 =>
    obtain ⟨i1, u1⟩ := p1
    simp only [h1] at h
    cases h2 : pTag [lbrace] i1 with
    | none => simp only [h2] at h; exact Option.noConfusion h
    | some p2 =>
      obtain ⟨i2, u2⟩ := p2
      simp only [h2] at h
      cases h3 : pMultispace0 i2 with
      | none => simp only [h3] at h; exact Option.noConfusion h
      | some p3 =>
        obtain ⟨i3, u3⟩ := p3
        simp only [h3] at h
        injection h with hh
        injection hh with hh1 hh2
        subst hh1
        obtain ⟨w1, hw1, hallw1⟩ := pMultispace0_split s i1 u1 h1
        have hi1 : i1 = lbrace :: i2 := pTag_singleton lbrace i1 i2 u2 h2
        obtain ⟨w2, hw2, hallw2⟩ := pMultispace0_split i2 i3 u3 h3
        exact ⟨w1, w2, by rw [hw1, hi1, hw2], hallw1, hallw2⟩

/-- Dissection of a successful `delimited` parse into its three stages. -/
theorem pDelimited_eq_some {a : P α} {b : P β} {c : P γ} {s r : List Char}
    {v : β} (h : pDelimited a b c s = some (r, v)) :
    ∃ s1 va s2 vc, a s = some (s1, va) ∧ b s1 = some (s2, v) ∧
      c s2 = some (r, vc) := by
  unfold pDelimited at h
  cases ha : a s with
  | none => simp only [ha] at h; exact Option.noConfusion h
  | some pa =>
    obtain ⟨s1, va⟩ := pa
    simp only [ha] at h
    cases hb : b s1 with
    | none => simp only [hb] at h; exact Option.noConfusion h
    | some pb =>
      obtain ⟨s2, vb⟩ := pb
      simp only [hb] at h
      cases hc : c s2 with
      | none => simp only [hc] at h; exact Option.noConfusion h
      | some pc =>
        obtain ⟨s3, vc⟩ := pc
        simp only [hc] at h
        injection h with hh
        injection hh with hh1 hh2
        subst hh1
        subst hh2
        exact ⟨s1, va, s2, vc, rfl, hb, hc⟩

/-- C5 part 1: a successful `parse_commands` decomposes its input as
optional whitespace, the opening brace, optional whitespace, a
brace-free content block, the closing brace, and the remaining input;
the stored command list is the newline-split/trim/drop-empty processing
of the content, in declaration order. -/
theorem parse_commands_split (input rest : List Char) (cmds : List String)
    (h : parse_commands input = some (rest, cmds)) :
    ∃ w1 w2 content,
      input = w1 ++ lbrace :: (w2 ++ (content ++ rbrace :: rest)) ∧
      (∀ ch ∈ w1, isMsp ch = true) ∧
      (∀ ch ∈ w2, isMsp ch = true) ∧
      rbrace ∉ content ∧
      cmds = specCommandSplit content := by
  unfold parse_commands at h
  cases hd : pDelimited (pDelimited pMultispace0 (pTag [lbrace]) pMultispace0)
      (pTakeUntilChar rbrace) (pPreceded pMultispace0 (pTag [rbrace])) input with
  | none => simp only [hd] at h; exact Option.noConfusion h
  | some p1 =>
    obtain ⟨r1, content⟩ := p1
    simp only [hd] at h
    injection h with hh
    injection hh with hh1 hh2
    subst hh1
    subst hh2
    obtain ⟨s1, ua, s2, uc, ha, hb, hc⟩ := pDelimited_eq_some hd
    obtain ⟨w1, w2, hsplit, hallw1, hallw2⟩ :=
      open_brace_split input s1 ua ha
    obtain ⟨r', hs2, hs1, hnotin⟩ :=
      pTakeUntilChar_split rbrace s1 s2 content hb
    rw [hs2] at hc
    have hs3 : r1 = r' := close_brace_split r' r1 uc hc
    refine ⟨w1, w2, content, ?_, hallw1, hallw2, hnotin,
      commandsOfContent_eq_spec content⟩
    rw [hsplit, hs1, hs3]

/-- The spec's description of whitespace tokenization: scan the line,
skipping whitespace and collecting each maximal run of non-whitespace
characters as one token. -/
def specTokens : List Char → List (List Char)
  | [] => []
  | c :: cs =>
    if rustIsWhitespace c then specTokens cs
    else
      match cs with
      | [] => [[c]]
      | c2 :: _ =>
        if rustIsWhitespace c2 then [c] :: specTokens cs
        else
          match specTokens cs with
          | t :: ts => (c :: t) :: ts
          | [] => [[c]]

/-- Every piece produced by `splitOnP` is free of separator elements. -/
theorem splitOnP_pieces_neg (p : α → Bool) :
    ∀ (l : List α) (t : List α), t ∈ l.splitOnP p → ∀ x ∈ t, p x = false := by
  intro l
  induction l with
  | nil =>
    intro t ht x hx
    rw [List.splitOnP_nil] at ht
    simp only [List.mem_singleton] at ht
    subst ht
    exact absurd hx (by simp)
  | cons c cs ih =>
    intro t ht x hx
    rw [List.splitOnP_cons] at ht
    by_cases hc : p c = true
    · rw [if_pos hc] at ht
      rcases List.mem_cons.mp ht with rfl | hmem
      · exact absurd hx (by simp)
      · exact ih t hmem x hx
    · rw [if_neg hc] at ht
      cases hsp : cs.splitOnP p with
      | nil => exact absurd hsp (List.splitOnP_ne_nil p cs)
      | cons h0 t0 =>
        rw [hsp] at ht
        simp only [List.modifyHead] at ht
        rcases List.mem_cons.mp ht with rfl | hmem
        · rcases List.mem_cons.mp hx with rfl | hx0
          · exact eq_false_of_ne_true hc
          · exact ih h0 (by rw [hsp]; exact List.mem_cons_self h0 t0) x hx0
        · exact ih t (by rw [hsp]; exact List.mem_cons_of_mem h0 hmem) x hx

/-- C5 part 2: Rust `split_whitespace` computes exactly the spec's
maximal non-whitespace runs. -/
theorem rustSplitWhitespace_eq_specTokens :
    ∀ s : List Char, rustSplitWhitespace s = specTokens s := by
  intro s
  induction s with
  | nil => rfl
  | cons c cs ih =>
    have ih' : (cs.splitOnP rustIsWhitespace).filter (· ≠ []) = specTokens cs := ih
    show ((c :: cs).splitOnP rustIsWhitespace).filter (· ≠ []) = specTokens (c :: cs)
    rw [List.splitOnP_cons]
    by_cases hc : rustIsWhitespace c = true
    · rw [if_pos hc, List.filter_cons]
      rw [if_neg (by simp)]
      rw [ih']
      simp [specTokens, hc]
    · rw [if_neg hc]
      obtain ⟨h0, t0, hsp⟩ : ∃ h0 t0,
          cs.splitOnP rustIsWhitespace = h0 :: t0 := by
        cases hsp : cs.splitOnP rustIsWhitespace with
        | nil => exact absurd hsp (List.splitOnP_ne_nil _ cs)
        | cons a b => exact ⟨a, b, rfl⟩
      rw [hsp]
      simp only [List.modifyHead]
      rw [List.filter_cons, if_pos (by simp)]
      cases cs with
      | nil =>
        rw [List.splitOnP_nil] at hsp
        injection hsp with e1 e2
        subst e1; subst e2
        simp [specTokens, hc]
      | cons c2 cs2 =>
        by_cases hc2 : rustIsWhitespace c2 = true
        · rw [List.splitOnP_cons, if_pos hc2] at hsp
          injection hsp with e1 e2
          subst e1; subst e2
          have hih : (cs2.splitOnP rustIsWhitespace).filter (· ≠ []) =
              specTokens (c2 :: cs2) := by
            rw [← ih']
            rw [List.splitOnP_cons, if_pos hc2, List.filter_cons,
              if_neg (by simp)]
          rw [hih]
          simp [specTokens, hc, hc2]
        · obtain ⟨h1, t1, hsp1⟩ : ∃ h1 t1,
              cs2.splitOnP rustIsWhitespace = h1 :: t1 := by
            cases hsp1 : cs2.splitOnP rustIsWhitespace with
            | nil => exact absurd hsp1 (List.splitOnP_ne_nil _ cs2)
            | cons a b => exact ⟨a, b, rfl⟩
          rw [List.splitOnP_cons, if_neg hc2, hsp1] at hsp
          simp only [List.modifyHead] at hsp
          injection hsp with e1 e2
          subst e1; subst e2
          have hihx : (c2 :: h1) :: t1.filter (· ≠ []) =
              specTokens (c2 :: cs2) := by
            rw [← ih']
            rw [List.splitOnP_cons, if_neg hc2, hsp1]
            simp only [List.modifyHead]
            rw [List.filter_cons, if_pos (by simp)]
          have hspec : specTokens (c :: c2 :: cs2) =
              match specTokens (c2 :: cs2) with
              | t :: ts => (c :: t) :: ts
              | [] => [[c]] := by
            simp [specTokens, hc, hc2]
          rw [hspec, ← hihx]

/-- Tokens produced by `split_whitespace` are non-empty and contain no
whitespace character. -/
theorem rustSplitWhitespace_token_props (s : List Char) :
    ∀ tok ∈ rustSplitWhitespace s, tok ≠ [] ∧
      ∀ ch ∈ tok, rustIsWhitespace ch = false := by
  intro tok htok
  unfold rustSplitWhitespace at htok
  obtain ⟨hmem, hpred⟩ := List.mem_filter.mp htok
  refine ⟨of_decide_eq_true hpred, ?_⟩
  intro ch hch
  exact splitOnP_pieces_neg rustIsWhitespace s tok hmem ch hch

/-- Execution-time tokenization takes the whitespace tokens of the
command line, the first as the program, the rest as arguments. -/
theorem tokenizeCmd_head_tail (cmd exe : String) (args : List String)
    (h : tokenizeCmd cmd = some (exe, args)) :
    (rustSplitWhitespace cmd.data).map (fun l => String.mk l) = exe :: args := by
  unfold tokenizeCmd at h
  cases hm : (rustSplitWhitespace cmd.data).map (fun l => String.mk l) with
  | nil => simp only [hm] at h; exact Option.noConfusion h
  | cons x xs =>
    simp only [hm] at h
    injection h with h1
    injection h1 with h1 h2
    rw [h1, h2]

/-- C5: (1) the brace-delimited command block's content is split into
lines on newlines, each trimmed, empty lines dropped, stored in
declaration order; (2) `split_whitespace` yields exactly the maximal
non-whitespace runs (no quoting or escaping: every non-whitespace
character, quotes included, lands verbatim in a token); (3) at execution
time a command line is tokenized into program name and argument list on
whitespace only; (4) a successful spawn phase runs exactly the
tokenizable stored commands in order. -/
theorem c5_commands_split_and_tokenized :
    (∀ (input rest : List Char) (cmds : List String),
      parse_commands input = some (rest, cmds) →
      ∃ w1 w2 content,
        input = w1 ++ lbrace :: (w2 ++ (content ++ rbrace :: rest)) ∧
        (∀ ch ∈ w1, isMsp ch = true) ∧ (∀ ch ∈ w2, isMsp ch = true) ∧
        rbrace ∉ content ∧ cmds = specCommandSplit content) ∧
    (∀ s : List Char, rustSplitWhitespace s = specTokens s ∧
      ∀ tok ∈ rustSplitWhitespace s, tok ≠ [] ∧
        ∀ ch ∈ tok, rustIsWhitespace ch = false) ∧
    (∀ (cmd exe : String) (args : List String),
      tokenizeCmd cmd = some (exe, args) →
      (rustSplitWhitespace cmd.data).map (fun l => String.mk l) =
        exe :: args) ∧
    (∀ (env : Env) (tname : String) (cmds : List String)
      (tr tr' : List Event) (cs : List (String × List String)),
      spawnPhase env tname cmds tr = (tr', Except.ok cs) →
      cs = cmds.filterMap tokenizeCmd) :=
  ⟨parse_commands_split,
   fun s => ⟨rustSplitWhitespace_eq_specTokens s,
     rustSplitWhitespace_token_props s⟩,
   tokenizeCmd_head_tail,
   fun env tname cmds tr tr' cs h => (spawnPhase_ok env tname cmds tr tr' cs h).1⟩

/-- Witness for C5 at concrete inputs: a sample command block splits
into its two trimmed lines; a sample command line tokenizes on
whitespace; a sample spawn phase runs the tokenized command. -/
theorem c5_commands_split_and_tokenized_witness :
    (∃ w1 w2 content,
      ("\x7bone two\nthree\x7d!").data =
        w1 ++ lbrace :: (w2 ++ (content ++ rbrace :: ("!").data)) ∧
      (∀ ch ∈ w1, isMsp ch = true) ∧ (∀ ch ∈ w2, isMsp ch = true) ∧
      rbrace ∉ content ∧
      (["one two", "three"] : List String) = specCommandSplit content) ∧
    (rustSplitWhitespace (("gcc -o").data) = specTokens (("gcc -o").data) ∧
      ∀ tok ∈ rustSplitWhitespace (("gcc -o").data), tok ≠ [] ∧
        ∀ ch ∈ tok, rustIsWhitespace ch = false) ∧
    ((rustSplitWhitespace (String.data "gcc -o x")).map
        (fun l => String.mk l) = "gcc" :: ["-o", "x"]) ∧
    ([("echo", ["hi"])] : List (String × List String)) =
      (["echo hi"] : List String).filterMap tokenizeCmd :=
  ⟨c5_commands_split_and_tokenized.1 (("\x7bone two\nthree\x7d!").data)
      (("!").data) ["one two", "three"] rfl,
   c5_commands_split_and_tokenized.2.1 (("gcc -o").data),
   c5_commands_split_and_tokenized.2.2.1 "gcc -o x" "gcc" ["-o", "x"] rfl,
   c5_commands_split_and_tokenized.2.2.2 trivialEnv "t" ["echo hi"] []
     [Event.spawned "t" "echo" ["hi"]] [("echo", ["hi"])] rfl⟩
